import Mathlib

/-!
# Verification of the json-rust serialization core

A shallow embedding of `src/codegen.rs` and `src/object.rs` from the
`azuqua/json-rust` repository, together with proofs about the byte-level
string-escaping algorithm, the generator walk (compact, pretty, and
sink-backed variants), the ordered map backing JSON objects, and a
parse-after-dump round trip.

Bytes are modelled as `Nat` (a Rust `u8` value, always < 256 where produced
by the code), byte buffers (`Vec<u8>`) as `List Nat`, and Rust strings as
their underlying byte sequences (`List Nat`), since the escaping code in the
source operates on `str::as_bytes()` byte-by-byte.
-/

set_option maxRecDepth 4000

namespace JsonRust

/-- Escape-code constants from `codegen.rs`: `QU = b'"'`. -/
def QU : Nat := 0x22
/-- `BS = b'\\'`. -/
def BS : Nat := 0x5C
/-- `BB = b'b'`. -/
def BB : Nat := 0x62
/-- `TT = b't'`. -/
def TT : Nat := 0x74
/-- `NN = b'n'`. -/
def NN : Nat := 0x6E
/-- `FF = b'f'`. -/
def FF : Nat := 0x66
/-- `RR = b'r'`. -/
def RR : Nat := 0x72
/-- `UU = b'u'`. -/
def UU : Nat := 0x75
/-- `__ = 0`, the "no escape needed" marker. -/
def NO : Nat := 0

/-- The 256-entry lookup table `ESCAPED` from `codegen.rs`, row for row.
Entry `b` is `0` when byte `b` needs no escaping, and otherwise the letter
byte written after the backslash (`u` marks the generic `\u00XX` class). -/
def ESCAPED : List Nat := [
-- 0   1   2   3   4   5   6   7   8   9   A   B   C   D   E   F
  UU, UU, UU, UU, UU, UU, UU, UU, BB, TT, NN, UU, FF, RR, UU, UU, -- 0
  UU, UU, UU, UU, UU, UU, UU, UU, UU, UU, UU, UU, UU, UU, UU, UU, -- 1
  NO, NO, QU, NO, NO, NO, NO, NO, NO, NO, NO, NO, NO, NO, NO, NO, -- 2
  NO, NO, NO, NO, NO, NO, NO, NO, NO, NO, NO, NO, NO, NO, NO, NO, -- 3
  NO, NO, NO, NO, NO, NO, NO, NO, NO, NO, NO, NO, NO, NO, NO, NO, -- 4
  NO, NO, NO, NO, NO, NO, NO, NO, NO, NO, NO, NO, BS, NO, NO, NO, -- 5
  NO, NO, NO, NO, NO, NO, NO, NO, NO, NO, NO, NO, NO, NO, NO, NO, -- 6
  NO, NO, NO, NO, NO, NO, NO, NO, NO, NO, NO, NO, NO, NO, NO, NO, -- 7
  NO, NO, NO, NO, NO, NO, NO, NO, NO, NO, NO, NO, NO, NO, NO, NO, -- 8
  NO, NO, NO, NO, NO, NO, NO, NO, NO, NO, NO, NO, NO, NO, NO, NO, -- 9
  NO, NO, NO, NO, NO, NO, NO, NO, NO, NO, NO, NO, NO, NO, NO, NO, -- A
  NO, NO, NO, NO, NO, NO, NO, NO, NO, NO, NO, NO, NO, NO, NO, NO, -- B
  NO, NO, NO, NO, NO, NO, NO, NO, NO, NO, NO, NO, NO, NO, NO, NO, -- C
  NO, NO, NO, NO, NO, NO, NO, NO, NO, NO, NO, NO, NO, NO, NO, NO, -- D
  NO, NO, NO, NO, NO, NO, NO, NO, NO, NO, NO, NO, NO, NO, NO, NO, -- E
  NO, NO, NO, NO, NO, NO, NO, NO, NO, NO, NO, NO, NO, NO, NO, NO  -- F
]

/-- `ESCAPED[ch as usize]`: table lookup (out-of-range reads 0, which can
never happen for a `u8` index in the source). -/
def escaped (b : Nat) : Nat := ESCAPED.getD b 0

/-- One lowercase hexadecimal digit byte, as produced by `write!("{:04x}")`. -/
def hexDigit (d : Nat) : Nat := if d < 10 then 0x30 + d else 0x57 + d

/-- The four lowercase, zero-padded hexadecimal digit bytes of `n`, as
`write!(self.get_writer(), "{:04x}", ch)` produces for `ch : u8`. -/
def hex4 (n : Nat) : List Nat :=
  [hexDigit (n / 4096 % 16), hexDigit (n / 256 % 16),
   hexDigit (n / 16 % 16), hexDigit (n % 16)]

/-- Rust slice `bytes[a .. b]` of a byte vector. -/
def slice (bs : List Nat) (a b : Nat) : List Nat := (bs.take b).drop a

/-- The `for (index, ch) in string.bytes().enumerate().skip(start)` loop of
`Generator::write_string_complex`, processing `rest = bytes[index ..]` while
`start` marks the beginning of the pending unescaped run.  On an escapable
byte it flushes `bytes[start .. index]`, writes `\` plus the table letter,
and for the `u` class the four hex digits; after the loop the code flushes
`bytes[start ..]`. -/
def escapeLoop (bs : List Nat) : Nat → Nat → List Nat → List Nat
  | start, _, [] => bs.drop start
  | start, index, ch :: rest =>
    if escaped ch > 0 then
      slice bs start index
        ++ 0x5C :: escaped ch :: (if escaped ch = 0x75 then hex4 ch else [])
        ++ escapeLoop bs (index + 1) (index + 1) rest
    else
      escapeLoop bs start (index + 1) rest

/-- `Generator::write_string_complex(string, start)` for a buffer-backed
generator whose writes append to `code`: writes `bytes[.. start]`, runs the
escape loop from `start`, and finishes with the closing quote. -/
def write_string_complex (code bs : List Nat) (start : Nat) : List Nat :=
  code ++ bs.take start ++ escapeLoop bs start start (bs.drop start) ++ [0x22]

/-- The scan loop of `Generator::write_string`: index of the first byte that
needs escaping, if any. -/
def scanEscape : Nat → List Nat → Option Nat
  | _, [] => none
  | index, ch :: rest =>
    if escaped ch > 0 then some index else scanEscape (index + 1) rest

/-- `Generator::write_string` for a buffer-backed generator: write the
opening quote, scan for a byte needing escaping; if none, write the raw
bytes and the closing quote (fast path), otherwise defer to
`write_string_complex` at the first escapable index. -/
def write_string (code bs : List Nat) : List Nat :=
  match scanEscape 0 bs with
  | some index => write_string_complex (code ++ [0x22]) bs index
  | none => (code ++ [0x22]) ++ bs ++ [0x22]

/-- The spec's per-byte escaping rule, worded as in §6 of the spec: `"` and
`\` get a backslash, backspace/tab/LF/FF/CR get their letter escapes, every
other byte below 0x20 becomes `\u00XX` with `XX` two lowercase hex digits,
and every other byte passes through unchanged. -/
def escapeByte (b : Nat) : List Nat :=
  if b = 0x22 then [0x5C, 0x22]
  else if b = 0x5C then [0x5C, 0x5C]
  else if b = 0x08 then [0x5C, 0x62]
  else if b = 0x09 then [0x5C, 0x74]
  else if b = 0x0A then [0x5C, 0x6E]
  else if b = 0x0C then [0x5C, 0x66]
  else if b = 0x0D then [0x5C, 0x72]
  else if b < 0x20 then [0x5C, 0x75, 0x30, 0x30, hexDigit (b / 16), hexDigit (b % 16)]
  else [b]


/-! ## Numbers and the decimal-printing collaborator -/

/-- Modelled from the spec: `number::Number` (external to `src/`) is "an
opaque decomposed form with a distinguished not-a-number sentinel" (§3);
`as_parts` yields the sign flag, integer mantissa and exponent (§4.3). -/
inductive Number where
  | nan : Number
  | mk (positive : Bool) (mantissa : Nat) (exponent : Int) : Number
deriving DecidableEq

/-- `Number::is_nan`. -/
def Number.is_nan : Number → Bool
  | .nan => true
  | .mk _ _ _ => false

/-- The byte text of the literal `null`. -/
def nullBytes : List Nat := [0x6E, 0x75, 0x6C, 0x6C]

/-- The byte text of the literal `true`. -/
def trueBytes : List Nat := [0x74, 0x72, 0x75, 0x65]

/-- The byte text of the literal `false`. -/
def falseBytes : List Nat := [0x66, 0x61, 0x6C, 0x73, 0x65]

/-- Decimal digit bytes of `n`, most significant first, pushed onto `acc`. -/
def decDigitsAux (n : Nat) (acc : List Nat) : List Nat :=
  if n < 10 then (0x30 + n % 10) :: acc
  else decDigitsAux (n / 10) ((0x30 + n % 10) :: acc)
termination_by n
decreasing_by exact Nat.div_lt_self (by omega) (by omega)

/-- Decimal digit bytes of `n`, most significant first (`0` renders as `0`). -/
def decDigits (n : Nat) : List Nat := decDigitsAux n []

/-- Signed decimal digit bytes of an integer: optional `-`, then digits. -/
def intDigits (i : Int) : List Nat :=
  (if i < 0 then [0x2D] else []) ++ decDigits i.natAbs

/-- Modelled from the spec: `util::print_dec` (external to `src/`) is the
decimal-printing collaborator handed the sign flag, mantissa and exponent
(§4.3, §6).  It is modelled as the exact decimal text of that decomposition:
a minus sign when the sign flag is negative, the mantissa's decimal digits,
and, when the exponent is nonzero, `e` followed by the signed exponent
digits.  The property the round-trip relies on — the printed text reparses
to the value — holds for this form just as for the source's
shortest-digit-count rendering. -/
def printDec (positive : Bool) (mantissa : Nat) (exponent : Int) : List Nat :=
  (if positive then [] else [0x2D]) ++ decDigits mantissa
    ++ (if exponent = 0 then [] else 0x65 :: intDigits exponent)

/-- `Generator::write_number`, parameterized by the decimal-printing
collaborator `pd` standing for `util::print_dec`: on the not-a-number
sentinel append the literal `null` and return without consulting `pd`;
otherwise append `pd` applied to the number's parts. -/
def write_number (pd : Bool → Nat → Int → List Nat) (code : List Nat) :
    Number → List Nat
  | .nan => code ++ nullBytes
  | .mk positive mantissa exponent => code ++ pd positive mantissa exponent

/-! ## The value tree and the ordered map -/

/-- Modelled from the spec: `JsonValue` (external to `src/`) is "a closed
tagged union" over null, boolean, number, string, array and object (§3).
The source's two text-storage variants (`Short` and `String`) are
"immaterial to the generator beyond readable as a byte sequence" and
serialize identically through `as_str`, so both are the single `string`
constructor here; an object carries its `Object`'s entry list. -/
inductive JsonValue where
  | null
  | boolean (b : Bool)
  | number (n : Number)
  | string (s : List Nat)
  | array (items : List JsonValue)
  | object (entries : List (List Nat × JsonValue))

/-- The entry list backing an `Object`: the `indexmap::IndexMap` (an
external crate), modelled from the spec (§4.2) as an insertion-ordered
association list; key uniqueness is the documented invariant (§3), tracked
separately by `dupFree`. -/
abbrev Entries := List (List Nat × JsonValue)

/-- Modelled from the spec (§4.2): `IndexMap::get`, the first entry with the
key. -/
def mapGet : Entries → List Nat → Option JsonValue
  | [], _ => none
  | (k', v') :: rest, k => if k' = k then some v' else mapGet rest k

/-- Modelled from the spec (§4.2): `IndexMap::insert` — "if key present, the
value is replaced in place, the key's position in iteration order is
unchanged; if absent, the entry is appended at the end of the current
order". -/
def mapInsert : Entries → List Nat → JsonValue → Entries
  | [], k, v => [(k, v)]
  | (k', v') :: rest, k, v =>
    if k' = k then (k', v) :: rest else (k', v') :: mapInsert rest k v

/-- Modelled from the spec (§4.2): `IndexMap::shift_remove` — remove the
keyed entry while preserving the relative order of all remaining entries. -/
def mapShiftRemove : Entries → List Nat → Entries
  | [], _ => []
  | (k', v') :: rest, k =>
    if k' = k then rest else (k', v') :: mapShiftRemove rest k

/-- Modelled from the spec (§4.2): `IndexMap::remove`, the order-breaking
removal "equivalent to swapping the hole with the last occupied slot": the
slot at the key's index is overwritten with the last entry and the last
slot is popped. -/
def mapSwapRemove (es : Entries) (k : List Nat) : Entries :=
  match es.findIdx? (fun e => e.1 == k) with
  | none => es
  | some i =>
    match es.getLast? with
    | none => es
    | some last => (es.set i last).dropLast

/-- `Object::insert` (object.rs): delegates to the inner map's insert. -/
def Object.insert (es : Entries) (k : List Nat) (v : JsonValue) : Entries :=
  mapInsert es k v

/-- `Object::get` (object.rs): delegates to the inner map's get. -/
def Object.get (es : Entries) (k : List Nat) : Option JsonValue := mapGet es k

/-- `Object::remove` (object.rs): delegates to `IndexMap::remove`; the pair
is the returned value and the map left in the swap-removed state. -/
def Object.remove (es : Entries) (k : List Nat) : Option JsonValue × Entries :=
  (mapGet es k, mapSwapRemove es k)

/-- `Object::shift_remove` (object.rs), with its effects made explicit: the
body first runs `println!("inner shift remove called")` — a line on standard
output — then `dbg!()` — a file-and-line trace on standard error — and only
then delegates to the inner map's `shift_remove`.  The first component
records the two effect streams (standard output, standard error); the rest
is the returned value and the mutated map. -/
def Object.shift_remove (es : Entries) (k : List Nat) :
    (List String × List String) × Option JsonValue × Entries :=
  ((["inner shift remove called"], ["[src/object.rs:156:9]"]),
   mapGet es k, mapShiftRemove es k)

/-- The key list of an entry list, in iteration order. -/
def keys (es : Entries) : List (List Nat) := es.map Prod.fst

/-- No key occurs twice: the `Object` key-uniqueness invariant (spec §3). -/
def dupFree : List (List Nat) → Bool
  | [] => true
  | k :: ks => !ks.contains k && dupFree ks

mutual
/-- Modelled from the spec: `PartialEq for JsonValue` (external to `src/`)
is structural equality of the tagged union, with numbers compared on their
decomposed parts and objects compared by the `PartialEq for Object`
implementation of object.rs (`objectEq` below). -/
def jsonEq : JsonValue → JsonValue → Bool
  | .null, .null => true
  | .boolean a, .boolean b => a == b
  | .number a, .number b => a == b
  | .string a, .string b => a == b
  | .array a, .array b => listJsonEq a b
  | .object a, .object b => objectEq a b
  | _, _ => false
termination_by a b => sizeOf a + sizeOf b

/-- Element-wise equality of arrays. -/
def listJsonEq : List JsonValue → List JsonValue → Bool
  | [], [] => true
  | a :: as0, b :: bs0 => jsonEq a b && listJsonEq as0 bs0
  | _, _ => false
termination_by a b => sizeOf a + sizeOf b

/-- `impl PartialEq for Object` (object.rs): the lengths must agree, and
every entry of the left map must be found by key in the right map with an
equal value. -/
def objectEq (a b : Entries) : Bool :=
  a.length == b.length && objectSub a b
termination_by sizeOf a + sizeOf b + 1

/-- The `for (key, value) in self.iter() { match other.get(key) ... }` loop
of the `PartialEq for Object` body. -/
def objectSub : Entries → Entries → Bool
  | [], _ => true
  | (k, v) :: rest, b =>
    (match _h : mapGet b k with
     | some w => jsonEq v w
     | none => false) && objectSub rest b
termination_by a b => sizeOf a + sizeOf b
decreasing_by
· have hlt : sizeOf w < sizeOf b := by
    induction b with
    | nil => exact absurd _h (by simp [mapGet])
    | cons e rest ih =>
      obtain ⟨k', v'⟩ := e
      unfold mapGet at _h
      by_cases hk : k' = k
      · rw [if_pos hk] at _h
        obtain rfl : v' = w := Option.some.inj _h
        simp only [List.cons.sizeOf_spec, Prod.mk.sizeOf_spec]
        omega
      · rw [if_neg hk] at _h
        have := ih _h
        simp only [List.cons.sizeOf_spec]
        omega
  simp only [List.cons.sizeOf_spec, Prod.mk.sizeOf_spec]
  omega
· simp only [List.cons.sizeOf_spec, Prod.mk.sizeOf_spec]
  omega
end

/-! ## The compact generator (`DumpGenerator`) -/

mutual
/-- `Generator::write_json` as instantiated by `DumpGenerator`: every
primitive write appends to the owned buffer `code` (`write` and `write_char`
push bytes, `write_min` writes the bare delimiter byte, `new_line`, `indent`
and `dedent` are no-ops). -/
def write_json (code : List Nat) : JsonValue → List Nat
  | .null => code ++ nullBytes
  | .boolean true => code ++ trueBytes
  | .boolean false => code ++ falseBytes
  | .number n => write_number printDec code n
  | .string s => write_string code s
  | .array [] => (code ++ [0x5B]) ++ [0x5D]
  | .array (x :: xs) => write_items (write_json (code ++ [0x5B]) x) xs ++ [0x5D]
  | .object es => write_object code es
termination_by v => sizeOf v

/-- The `for item in iter` tail loop of the array branch: a comma, then the
item, for each remaining element. -/
def write_items (code : List Nat) : List JsonValue → List Nat
  | [] => code
  | x :: xs => write_items (write_json (code ++ [0x2C]) x) xs
termination_by xs => sizeOf xs

/-- `Generator::write_object` as instantiated by `DumpGenerator`: `{`, then
the first key as a string, the bare `:`, its value, then the remaining
entries each preceded by `,`, and finally `}`; an empty object short-circuits
to `{}`. -/
def write_object (code : List Nat) : Entries → List Nat
  | [] => (code ++ [0x7B]) ++ [0x7D]
  | (k, v) :: rest =>
    write_entries (write_json (write_string (code ++ [0x7B]) k ++ [0x3A]) v) rest
      ++ [0x7D]
termination_by es => sizeOf es

/-- The `for (key, value) in iter` tail loop of `write_object`. -/
def write_entries (code : List Nat) : Entries → List Nat
  | [] => code
  | (k, v) :: rest =>
    write_entries (write_json (write_string (code ++ [0x2C]) k ++ [0x3A]) v) rest
termination_by es => sizeOf es
end

/-- `JsonValue::dump`: a fresh `DumpGenerator` (empty buffer), `write_json`,
`consume`. -/
def dump (v : JsonValue) : List Nat := write_json [] v

/-- `Object::dump` (object.rs): a fresh `DumpGenerator`, `write_object`,
`consume`. -/
def Object.dump (es : Entries) : List Nat := write_object [] es

/-! ## The pretty generator (`PrettyGenerator`)

State of a `PrettyGenerator`: the owned byte buffer `code` and the current
indent depth `dent` (`spaces_per_indent` is a fixed parameter). -/

/-- `PrettyGenerator::new_line`: push `\n`, then `dent * spaces_per_indent`
space bytes. -/
def pretty_new_line (spaces : Nat) (st : List Nat × Nat) : List Nat × Nat :=
  (st.1 ++ 0x0A :: List.replicate (st.2 * spaces) 0x20, st.2)

mutual
/-- `Generator::write_json` as instantiated by `PrettyGenerator`: writes
append to the owned buffer, `write_min` writes the padded slice (`": "`),
`new_line` emits `\n` plus the current indentation, and `indent`/`dedent`
move the depth. -/
def pretty_write_json (spaces : Nat) : List Nat × Nat → JsonValue → List Nat × Nat
  | st, .null => (st.1 ++ nullBytes, st.2)
  | st, .boolean true => (st.1 ++ trueBytes, st.2)
  | st, .boolean false => (st.1 ++ falseBytes, st.2)
  | st, .number n => (write_number printDec st.1 n, st.2)
  | st, .string s => (write_string st.1 s, st.2)
  | st, .array [] => ((st.1 ++ [0x5B]) ++ [0x5D], st.2)
  | st, .array (x :: xs) =>
    let st1 := pretty_new_line spaces (st.1 ++ [0x5B], st.2 + 1)
    let st2 := pretty_write_json spaces st1 x
    let st3 := pretty_write_items spaces st2 xs
    let st4 := pretty_new_line spaces (st3.1, st3.2 - 1)
    (st4.1 ++ [0x5D], st4.2)
  | st, .object es => pretty_write_object spaces st es
termination_by _ v => sizeOf v

/-- The array tail loop in pretty mode: `,`, `new_line`, item. -/
def pretty_write_items (spaces : Nat) :
    List Nat × Nat → List JsonValue → List Nat × Nat
  | st, [] => st
  | st, x :: xs =>
    pretty_write_items spaces
      (pretty_write_json spaces (pretty_new_line spaces (st.1 ++ [0x2C], st.2)) x) xs
termination_by _ xs => sizeOf xs

/-- `Generator::write_object` as instantiated by `PrettyGenerator`. -/
def pretty_write_object (spaces : Nat) : List Nat × Nat → Entries → List Nat × Nat
  | st, [] => ((st.1 ++ [0x7B]) ++ [0x7D], st.2)
  | st, (k, v) :: rest =>
    let st1 := pretty_new_line spaces (st.1 ++ [0x7B], st.2 + 1)
    let st2 := pretty_write_json spaces
      (write_string st1.1 k ++ [0x3A, 0x20], st1.2) v
    let st3 := pretty_write_entries spaces st2 rest
    let st4 := pretty_new_line spaces (st3.1, st3.2 - 1)
    (st4.1 ++ [0x7D], st4.2)
termination_by _ es => sizeOf es

/-- The object tail loop in pretty mode: `,`, `new_line`, key, `": "`,
value. -/
def pretty_write_entries (spaces : Nat) :
    List Nat × Nat → Entries → List Nat × Nat
  | st, [] => st
  | st, (k, v) :: rest =>
    let st1 := pretty_new_line spaces (st.1 ++ [0x2C], st.2)
    let st2 := pretty_write_json spaces
      (write_string st1.1 k ++ [0x3A, 0x20], st1.2) v
    pretty_write_entries spaces st2 rest
termination_by _ es => sizeOf es
end

/-- `JsonValue::pretty(spaces)`: fresh `PrettyGenerator` (empty buffer,
depth 0), `write_json`, `consume`. -/
def pretty (spaces : Nat) (v : JsonValue) : List Nat :=
  (pretty_write_json spaces ([], 0) v).1

/-- `Object::pretty(spaces)` (object.rs): fresh `PrettyGenerator`,
`write_object`, `consume`. -/
def Object.pretty (spaces : Nat) (es : Entries) : List Nat :=
  (pretty_write_object spaces ([], 0) es).1

/-! ### The spec's wording of pretty output -/

/-- The spec's newline-plus-indentation unit: a line feed followed by
`N × depth` space characters (§6). -/
def nlIndent (N d : Nat) : List Nat := 0x0A :: List.replicate (N * d) 0x20

mutual
/-- Pretty output as the spec words it (§6, §4.3): after `{` or `[` with at
least one entry, and before every subsequent entry and before the closing
bracket, `\n` followed by `N × depth` spaces, with depth 1 inside the first
nesting level (`d` is the depth outside the value); key and value separated
by `: `. -/
def prettySpec (N d : Nat) : JsonValue → List Nat
  | .null => nullBytes
  | .boolean true => trueBytes
  | .boolean false => falseBytes
  | .number n => write_number printDec [] n
  | .string s => write_string [] s
  | .array [] => [0x5B, 0x5D]
  | .array (x :: xs) =>
    0x5B :: (nlIndent N (d + 1) ++ prettySpec N (d + 1) x
      ++ prettySpecItems N (d + 1) xs ++ nlIndent N d ++ [0x5D])
  | .object [] => [0x7B, 0x7D]
  | .object ((k, v) :: rest) =>
    0x7B :: (nlIndent N (d + 1) ++ write_string [] k
      ++ 0x3A :: 0x20 :: (prettySpec N (d + 1) v
        ++ prettySpecEntries N (d + 1) rest)
      ++ nlIndent N d ++ [0x7D])
termination_by v => sizeOf v

/-- Later array entries, each preceded by `,` and the newline-indent. -/
def prettySpecItems (N d : Nat) : List JsonValue → List Nat
  | [] => []
  | x :: xs =>
    0x2C :: (nlIndent N d ++ prettySpec N d x ++ prettySpecItems N d xs)
termination_by xs => sizeOf xs

/-- Later object entries, each preceded by `,` and the newline-indent. -/
def prettySpecEntries (N d : Nat) : Entries → List Nat
  | [] => []
  | (k, v) :: rest =>
    0x2C :: (nlIndent N d ++ write_string [] k
      ++ 0x3A :: 0x20 :: (prettySpec N d v ++ prettySpecEntries N d rest))
termination_by es => sizeOf es
end

/-! ## The sink-backed generators (`WriterGenerator`, `PrettyWriterGenerator`)

A borrowed `W: io::Write` sink: `writeAll` is `write_all`, which either
fails (`none`, an `io::Error`) or returns the sink after consuming the
bytes.  `write` and `write_char` of the trait both go through it. -/

structure Sink (W : Type) where
  writeAll : W → List Nat → Option W

/-- The escape loop of `write_string_complex` over a sink. -/
def writer_escapeLoop {W : Type} (snk : Sink W) (bs : List Nat) :
    W → Nat → Nat → List Nat → Option W
  | w, start, _, [] => snk.writeAll w (bs.drop start)
  | w, start, index, ch :: rest =>
    if escaped ch > 0 then
      (snk.writeAll w (slice bs start index)).bind fun w1 =>
      (snk.writeAll w1 [0x5C, escaped ch]).bind fun w2 =>
      (if escaped ch = 0x75 then snk.writeAll w2 (hex4 ch) else some w2).bind
        fun w3 => writer_escapeLoop snk bs w3 (index + 1) (index + 1) rest
    else
      writer_escapeLoop snk bs w start (index + 1) rest

/-- `Generator::write_string` over a sink: same two-phase algorithm as the
buffer-backed form, with each write a fallible `write_all`. -/
def writer_write_string {W : Type} (snk : Sink W) (w : W) (bs : List Nat) :
    Option W :=
  (snk.writeAll w [0x22]).bind fun w1 =>
  match scanEscape 0 bs with
  | some index =>
    (snk.writeAll w1 (bs.take index)).bind fun w2 =>
    (writer_escapeLoop snk bs w2 index index (bs.drop index)).bind fun w3 =>
    snk.writeAll w3 [0x22]
  | none => (snk.writeAll w1 bs).bind fun w2 => snk.writeAll w2 [0x22]

/-- `Generator::write_number` over a sink. -/
def writer_write_number {W : Type} (snk : Sink W)
    (pd : Bool → Nat → Int → List Nat) (w : W) : Number → Option W
  | .nan => snk.writeAll w nullBytes
  | .mk positive mantissa exponent => snk.writeAll w (pd positive mantissa exponent)

mutual
/-- `Generator::write_json` as instantiated by `WriterGenerator`: compact
formatting (`write_min` writes the bare delimiter, `new_line`/`indent`/
`dedent` no-ops) into a fallible sink. -/
def writer_write_json {W : Type} (snk : Sink W) (w : W) : JsonValue → Option W
  | .null => snk.writeAll w nullBytes
  | .boolean true => snk.writeAll w trueBytes
  | .boolean false => snk.writeAll w falseBytes
  | .number n => writer_write_number snk printDec w n
  | .string s => writer_write_string snk w s
  | .array [] => (snk.writeAll w [0x5B]).bind fun w1 => snk.writeAll w1 [0x5D]
  | .array (x :: xs) =>
    (snk.writeAll w [0x5B]).bind fun w1 =>
    (writer_write_json snk w1 x).bind fun w2 =>
    (writer_write_items snk w2 xs).bind fun w3 =>
    snk.writeAll w3 [0x5D]
  | .object es => writer_write_object snk w es
termination_by v => sizeOf v

/-- Array tail loop over a sink. -/
def writer_write_items {W : Type} (snk : Sink W) (w : W) :
    List JsonValue → Option W
  | [] => some w
  | x :: xs =>
    (snk.writeAll w [0x2C]).bind fun w1 =>
    (writer_write_json snk w1 x).bind fun w2 =>
    writer_write_items snk w2 xs
termination_by xs => sizeOf xs

/-- `Generator::write_object` as instantiated by `WriterGenerator`. -/
def writer_write_object {W : Type} (snk : Sink W) (w : W) : Entries → Option W
  | [] => (snk.writeAll w [0x7B]).bind fun w1 => snk.writeAll w1 [0x7D]
  | (k, v) :: rest =>
    (snk.writeAll w [0x7B]).bind fun w1 =>
    (writer_write_string snk w1 k).bind fun w2 =>
    (snk.writeAll w2 [0x3A]).bind fun w3 =>
    (writer_write_json snk w3 v).bind fun w4 =>
    (writer_write_entries snk w4 rest).bind fun w5 =>
    snk.writeAll w5 [0x7D]
termination_by es => sizeOf es

/-- Object tail loop over a sink. -/
def writer_write_entries {W : Type} (snk : Sink W) (w : W) :
    Entries → Option W
  | [] => some w
  | (k, v) :: rest =>
    (snk.writeAll w [0x2C]).bind fun w1 =>
    (writer_write_string snk w1 k).bind fun w2 =>
    (snk.writeAll w2 [0x3A]).bind fun w3 =>
    (writer_write_json snk w3 v).bind fun w4 =>
    writer_write_entries snk w4 rest
termination_by es => sizeOf es
end

/-- `PrettyWriterGenerator::new_line`: `write_char(b'\n')`, then one
`write_char(b' ')` per indentation column, each fallible. -/
def pwriter_space_loop {W : Type} (snk : Sink W) : W → Nat → Option W
  | w, 0 => some w
  | w, n + 1 => (snk.writeAll w [0x20]).bind fun w1 => pwriter_space_loop snk w1 n

/-- The sink-and-depth state step for `PrettyWriterGenerator::new_line`. -/
def pwriter_new_line {W : Type} (snk : Sink W) (spaces : Nat)
    (st : W × Nat) : Option (W × Nat) :=
  ((snk.writeAll st.1 [0x0A]).bind fun w1 =>
    pwriter_space_loop snk w1 (st.2 * spaces)).map fun w2 => (w2, st.2)

mutual
/-- `Generator::write_json` as instantiated by `PrettyWriterGenerator`:
pretty formatting (`write_min` writes the padded slice, `new_line` emits
newline plus indentation) into a fallible sink, carrying the depth. -/
def pwriter_write_json {W : Type} (snk : Sink W) (spaces : Nat)
    (st : W × Nat) : JsonValue → Option (W × Nat)
  | .null => (snk.writeAll st.1 nullBytes).map fun w => (w, st.2)
  | .boolean true => (snk.writeAll st.1 trueBytes).map fun w => (w, st.2)
  | .boolean false => (snk.writeAll st.1 falseBytes).map fun w => (w, st.2)
  | .number n => (writer_write_number snk printDec st.1 n).map fun w => (w, st.2)
  | .string s => (writer_write_string snk st.1 s).map fun w => (w, st.2)
  | .array [] =>
    ((snk.writeAll st.1 [0x5B]).bind fun w1 => snk.writeAll w1 [0x5D]).map
      fun w => (w, st.2)
  | .array (x :: xs) =>
    (snk.writeAll st.1 [0x5B]).bind fun w1 =>
    (pwriter_new_line snk spaces (w1, st.2 + 1)).bind fun st1 =>
    (pwriter_write_json snk spaces st1 x).bind fun st2 =>
    (pwriter_write_items snk spaces st2 xs).bind fun st3 =>
    (pwriter_new_line snk spaces (st3.1, st3.2 - 1)).bind fun st4 =>
    (snk.writeAll st4.1 [0x5D]).map fun w => (w, st4.2)
  | .object es => pwriter_write_object snk spaces st es
termination_by v => sizeOf v

/-- Array tail loop for the pretty sink generator. -/
def pwriter_write_items {W : Type} (snk : Sink W) (spaces : Nat)
    (st : W × Nat) : List JsonValue → Option (W × Nat)
  | [] => some st
  | x :: xs =>
    (snk.writeAll st.1 [0x2C]).bind fun w1 =>
    (pwriter_new_line snk spaces (w1, st.2)).bind fun st1 =>
    (pwriter_write_json snk spaces st1 x).bind fun st2 =>
    pwriter_write_items snk spaces st2 xs
termination_by xs => sizeOf xs

/-- `Generator::write_object` as instantiated by `PrettyWriterGenerator`. -/
def pwriter_write_object {W : Type} (snk : Sink W) (spaces : Nat)
    (st : W × Nat) : Entries → Option (W × Nat)
  | [] =>
    ((snk.writeAll st.1 [0x7B]).bind fun w1 => snk.writeAll w1 [0x7D]).map
      fun w => (w, st.2)
  | (k, v) :: rest =>
    (snk.writeAll st.1 [0x7B]).bind fun w1 =>
    (pwriter_new_line snk spaces (w1, st.2 + 1)).bind fun st1 =>
    (writer_write_string snk st1.1 k).bind fun w2 =>
    (snk.writeAll w2 [0x3A, 0x20]).bind fun w3 =>
    (pwriter_write_json snk spaces (w3, st1.2) v).bind fun st2 =>
    (pwriter_write_entries snk spaces st2 rest).bind fun st3 =>
    (pwriter_new_line snk spaces (st3.1, st3.2 - 1)).bind fun st4 =>
    (snk.writeAll st4.1 [0x7D]).map fun w => (w, st4.2)
termination_by es => sizeOf es

/-- Object tail loop for the pretty sink generator. -/
def pwriter_write_entries {W : Type} (snk : Sink W) (spaces : Nat)
    (st : W × Nat) : Entries → Option (W × Nat)
  | [] => some st
  | (k, v) :: rest =>
    (snk.writeAll st.1 [0x2C]).bind fun w1 =>
    (pwriter_new_line snk spaces (w1, st.2)).bind fun st1 =>
    (writer_write_string snk st1.1 k).bind fun w2 =>
    (snk.writeAll w2 [0x3A, 0x20]).bind fun w3 =>
    (pwriter_write_json snk spaces (w3, st1.2) v).bind fun st2 =>
    pwriter_write_entries snk spaces st2 rest
termination_by es => sizeOf es
end

/-- A recording sink: an always-succeeding `io::Write` destination that
accumulates the bytes written to it, used to observe sink-backed output. -/
def recSink : Sink (List Nat) := ⟨fun w bs => some (w ++ bs)⟩

/-! ## A parser, modelled from the spec

Modelled from the spec: parsing JSON text into a value tree is an external
collaborator — `src/parser.rs` is not part of `src/` (spec §1 excludes it;
§8's round-trip property consumes it).  The model is a recursive-descent
reader of the JSON the generator emits: literals, strings with the escape
classes of §6 (including `\u` sequences decoded to the character's bytes),
numbers as sign, mantissa digits and optional `e`-exponent matching the
decimal collaborator's contract, arrays, and objects whose members are
accumulated through the map's `insert`, as the source parser builds its
`Object`.  The compact generator emits no inter-token whitespace and the
spec leaves tokenization out of scope (§1), so tokens are read
back-to-back.  The outer recursion is fueled; `parse` supplies more fuel
than the input length, which the round-trip proof shows is enough. -/

/-- Is `b` an ASCII decimal digit byte? -/
def isDigitB (b : Nat) : Bool := decide (0x30 ≤ b ∧ b ≤ 0x39)

/-- The longest prefix of decimal digit bytes, and the remaining input. -/
def takeDigits : List Nat → List Nat × List Nat
  | [] => ([], [])
  | b :: rest =>
    if isDigitB b then
      let p := takeDigits rest
      (b :: p.1, p.2)
    else ([], b :: rest)

/-- The number denoted by a most-significant-first digit-byte list. -/
def digitsVal (ds : List Nat) : Nat :=
  ds.foldl (fun acc d => acc * 10 + (d - 0x30)) 0

/-- The value of one hexadecimal digit byte. -/
def hexVal (b : Nat) : Option Nat :=
  if 0x30 ≤ b ∧ b ≤ 0x39 then some (b - 0x30)
  else if 0x61 ≤ b ∧ b ≤ 0x66 then some (b - 0x61 + 10)
  else if 0x41 ≤ b ∧ b ≤ 0x46 then some (b - 0x41 + 10)
  else none

/-- The byte named by a single-letter string escape. -/
def unescapeByte (e : Nat) : Option Nat :=
  if e = 0x22 then some 0x22
  else if e = 0x5C then some 0x5C
  else if e = 0x2F then some 0x2F
  else if e = 0x62 then some 0x08
  else if e = 0x74 then some 0x09
  else if e = 0x6E then some 0x0A
  else if e = 0x66 then some 0x0C
  else if e = 0x72 then some 0x0D
  else none

/-- The UTF-8 byte sequence of a code point below 0x10000 (the range a
single `\uXXXX` escape can name). -/
def utf8Encode (n : Nat) : List Nat :=
  if n < 0x80 then [n]
  else if n < 0x800 then [0xC0 + n / 64, 0x80 + n % 64]
  else [0xE0 + n / 4096, 0x80 + n / 64 % 64, 0x80 + n % 64]

/-- String-body reader: consumes bytes after the opening quote up to and
including the closing quote, undoing the escape classes; `acc` holds the
bytes read so far, reversed. -/
def parseString (acc : List Nat) : List Nat → Option (List Nat × List Nat)
  | [] => none
  | b :: rest =>
    if b = 0x22 then some (acc.reverse, rest)
    else if b = 0x5C then
      match rest with
      | [] => none
      | e :: rest1 =>
        if e = 0x75 then
          match rest1 with
          | h1 :: h2 :: h3 :: h4 :: rest2 =>
            match hexVal h1, hexVal h2, hexVal h3, hexVal h4 with
            | some d1, some d2, some d3, some d4 =>
              parseString
                ((utf8Encode (((d1 * 16 + d2) * 16 + d3) * 16 + d4)).reverse ++ acc)
                rest2
            | _, _, _, _ => none
          | _ => none
        else
          match unescapeByte e with
          | some c => parseString (c :: acc) rest1
          | none => none
    else parseString (b :: acc) rest

/-- Exponent-digit reader: the digits after `e` and its optional sign. -/
def parseExpDigits (pos : Bool) (m : Nat) (eneg : Bool) (r : List Nat) :
    Option (Number × List Nat) :=
  if (takeDigits r).1 = [] then none
  else
    some (.mk pos m
      (if eneg then -(digitsVal (takeDigits r).1 : Int)
       else (digitsVal (takeDigits r).1 : Int)), (takeDigits r).2)

/-- Number reader after the optional leading minus: mantissa digits, then an
optional `e`-exponent with optional sign. -/
def parseNumberBody (pos : Bool) (r1 : List Nat) : Option (Number × List Nat) :=
  if (takeDigits r1).1 = [] then none
  else
    match (takeDigits r1).2 with
    | [] => some (.mk pos (digitsVal (takeDigits r1).1) 0, [])
    | c :: r3 =>
      if c = 0x65 then
        match r3 with
        | [] => none
        | c2 :: r4 =>
          if c2 = 0x2D then
            parseExpDigits pos (digitsVal (takeDigits r1).1) true r4
          else if c2 = 0x2B then
            parseExpDigits pos (digitsVal (takeDigits r1).1) false r4
          else
            parseExpDigits pos (digitsVal (takeDigits r1).1) false (c2 :: r4)
      else some (.mk pos (digitsVal (takeDigits r1).1) 0, c :: r3)

/-- Number reader: optional minus, mantissa digits, optional `e`-exponent
with optional sign, reconstructing the decomposed parts. -/
def parseNumber : List Nat → Option (Number × List Nat)
  | [] => none
  | b :: r0 =>
    if b = 0x2D then parseNumberBody false r0 else parseNumberBody true (b :: r0)

mutual
/-- Value reader, fueled: dispatch on the first byte. -/
def parseValue : Nat → List Nat → Option (JsonValue × List Nat)
  | 0, _ => none
  | fuel + 1, input =>
    match input with
    | [] => none
    | b :: r =>
      if b = 0x6E then
        match r with
        | 0x75 :: 0x6C :: 0x6C :: r1 => some (.null, r1)
        | _ => none
      else if b = 0x74 then
        match r with
        | 0x72 :: 0x75 :: 0x65 :: r1 => some (.boolean true, r1)
        | _ => none
      else if b = 0x66 then
        match r with
        | 0x61 :: 0x6C :: 0x73 :: 0x65 :: r1 => some (.boolean false, r1)
        | _ => none
      else if b = 0x22 then
        (parseString [] r).map fun p => (.string p.1, p.2)
      else if b = 0x5B then
        match r with
        | [] => none
        | c :: r1 =>
          if c = 0x5D then some (.array [], r1)
          else (parseElems fuel (c :: r1)).map fun p => (.array p.1, p.2)
      else if b = 0x7B then
        match r with
        | [] => none
        | c :: r1 =>
          if c = 0x7D then some (.object [], r1)
          else (parseMembers fuel [] (c :: r1)).map fun p => (.object p.1, p.2)
      else if b = 0x2D ∨ isDigitB b = true then
        (parseNumber (b :: r)).map fun p => (.number p.1, p.2)
      else none

/-- Comma-separated array elements up to the closing `]`. -/
def parseElems : Nat → List Nat → Option (List JsonValue × List Nat)
  | 0, _ => none
  | fuel + 1, input =>
    match parseValue fuel input with
    | none => none
    | some (v, r) =>
      match r with
      | [] => none
      | c :: r1 =>
        if c = 0x2C then (parseElems fuel r1).map fun p => (v :: p.1, p.2)
        else if c = 0x5D then some ([v], r1)
        else none

/-- Comma-separated object members up to the closing `}`, inserted into the
accumulated `Object` with the map's `insert`. -/
def parseMembers : Nat → Entries → List Nat → Option (Entries × List Nat)
  | 0, _, _ => none
  | fuel + 1, acc, input =>
    match input with
    | [] => none
    | b :: r =>
      if b = 0x22 then
        match parseString [] r with
        | none => none
        | some (k, r1) =>
          match r1 with
          | [] => none
          | c :: r2 =>
            if c = 0x3A then
              match parseValue fuel r2 with
              | none => none
              | some (v, r3) =>
                match r3 with
                | [] => none
                | c2 :: r4 =>
                  if c2 = 0x2C then parseMembers fuel (Object.insert acc k v) r4
                  else if c2 = 0x7D then some (Object.insert acc k v, r4)
                  else none
            else none
      else none
end

/-- Whole-document parse: enough fuel for the input, and no trailing bytes
may remain. -/
def parse (input : List Nat) : Option JsonValue :=
  match parseValue (input.length + 1) input with
  | some (v, []) => some v
  | _ => none

/-- Pointwise comparison of two optional lookup results: both absent, or
both present with equal values. -/
def optEq : Option JsonValue → Option JsonValue → Bool
  | none, none => true
  | some v, some w => jsonEq v w
  | _, _ => false

/-! ## Predicates for the round trip -/

mutual
/-- The `Object` key-uniqueness invariant (spec §3), recursively: every
object in the tree has a duplicate-free key list. -/
def objInv : JsonValue → Bool
  | .null => true
  | .boolean _ => true
  | .number _ => true
  | .string _ => true
  | .array xs => objInvList xs
  | .object es => dupFree (keys es) && objInvEntries es
termination_by v => sizeOf v

def objInvList : List JsonValue → Bool
  | [] => true
  | x :: xs => objInv x && objInvList xs
termination_by xs => sizeOf xs

def objInvEntries : Entries → Bool
  | [] => true
  | (_, v) :: es => objInv v && objInvEntries es
termination_by es => sizeOf es
end

mutual
/-- No number in the tree is the not-a-number sentinel. -/
def nanFree : JsonValue → Bool
  | .null => true
  | .boolean _ => true
  | .number n => !n.is_nan
  | .string _ => true
  | .array xs => nanFreeList xs
  | .object es => nanFreeEntries es
termination_by v => sizeOf v

def nanFreeList : List JsonValue → Bool
  | [] => true
  | x :: xs => nanFree x && nanFreeList xs
termination_by xs => sizeOf xs

def nanFreeEntries : Entries → Bool
  | [] => true
  | (_, v) :: es => nanFree v && nanFreeEntries es
termination_by es => sizeOf es
end

/-- A remainder that cannot extend a rendered number: empty, or headed by a
byte that is neither a digit nor `e`.  Every delimiter the generator can
emit after a value (`,`, `]`, `}`, end of input) qualifies. -/
def numDelimB : List Nat → Bool
  | [] => true
  | b :: _ => !(isDigitB b || b == 0x65)

/-! ## Table facts -/

/-! ## Escape-table and scan facts -/

theorem ESCAPED_length : ESCAPED.length = 256 := by decide

theorem escaped_of_ge (b : Nat) (h : 256 ≤ b) : escaped b = 0 := by
  unfold escaped
  exact List.getD_eq_default _ _ (ESCAPED_length ▸ h)

theorem escaped_table_spec : ∀ b < 256, escaped b ≠ 0 →
    0x5C :: escaped b :: (if escaped b = 0x75 then hex4 b else []) = escapeByte b := by
  decide

theorem escaped_pass_spec : ∀ b < 256, escaped b = 0 → escapeByte b = [b] := by
  decide

/-- An escapable byte is escaped exactly as the spec's per-byte rule says. -/
theorem escList_eq_escapeByte (b : Nat) (h : escaped b ≠ 0) :
    0x5C :: escaped b :: (if escaped b = 0x75 then hex4 b else []) = escapeByte b := by
  by_cases hb : b < 256
  · exact escaped_table_spec b hb h
  · exact absurd (escaped_of_ge b (by omega)) h

/-- A non-escapable byte passes through unchanged. -/
theorem escapeByte_pass (b : Nat) (h : escaped b = 0) : escapeByte b = [b] := by
  by_cases hb : b < 256
  · exact escaped_pass_spec b hb h
  · have h22 : b ≠ 0x22 := by omega
    have h5c : b ≠ 0x5C := by omega
    have h08 : b ≠ 0x08 := by omega
    have h09 : b ≠ 0x09 := by omega
    have h0a : b ≠ 0x0A := by omega
    have h0c : b ≠ 0x0C := by omega
    have h0d : b ≠ 0x0D := by omega
    have hlt : ¬ b < 0x20 := by omega
    simp [escapeByte, h22, h5c, h08, h09, h0a, h0c, h0d, hlt]

theorem slice_self (bs : List Nat) (i : Nat) : slice bs i i = [] := by
  unfold slice
  exact List.drop_eq_nil_of_le (by simp)

theorem slice_extend (bs : List Nat) (s i : Nat) (ch : Nat) (rest : List Nat)
    (hs : s ≤ i) (hdrop : bs.drop i = ch :: rest) :
    slice bs s (i + 1) = slice bs s i ++ [ch] := by
  have hi : i < bs.length := by
    by_contra hcon
    rw [List.drop_eq_nil_of_le (by omega)] at hdrop
    exact List.noConfusion hdrop
  have hget : bs[i]? = some ch := by
    have := congrArg List.head? hdrop
    rwa [List.head?_drop] at this
  unfold slice
  rw [List.take_succ, hget]
  simp only [Option.toList_some]
  rw [List.drop_append_of_le_length]
  simp [List.length_take, Nat.le_min, hs, Nat.le_of_lt hi]

/-- The escape loop emits the pending raw run followed by the per-byte
escaping of the remaining input. -/
theorem escapeLoop_spec (bs : List Nat) :
    ∀ (rest : List Nat) (s i : Nat), rest = bs.drop i → s ≤ i →
      escapeLoop bs s i rest = slice bs s i ++ rest.flatMap escapeByte := by
  intro rest
  induction rest with
  | nil =>
    intro s i hdrop hs
    unfold escapeLoop
    have hlen : bs.length ≤ i := by
      by_contra hcon
      have : bs.drop i ≠ [] := by
        simpa [List.drop_eq_nil_iff] using Nat.lt_of_not_le hcon
      exact this hdrop.symm
    simp [slice, List.take_of_length_le hlen]
  | cons ch rest ih =>
    intro s i hdrop hs
    have htail : rest = bs.drop (i + 1) := by
      have := congrArg List.tail hdrop
      simp only [List.tail_drop] at this
      exact this.symm ▸ rfl
    unfold escapeLoop
    by_cases hesc : escaped ch > 0
    · rw [if_pos hesc, ih (i + 1) (i + 1) htail (Nat.le_refl _)]
      rw [slice_self, List.nil_append, List.flatMap_cons,
        ← escList_eq_escapeByte ch (by omega)]
      simp
    · have h0 : escaped ch = 0 := by omega
      rw [if_neg hesc, ih s (i + 1) htail (by omega)]
      rw [slice_extend bs s i ch rest hs hdrop.symm, List.flatMap_cons,
        escapeByte_pass ch h0]
      simp

theorem scanEscape_none (rest : List Nat) :
    ∀ i, scanEscape i rest = none → ∀ b ∈ rest, escaped b = 0 := by
  induction rest with
  | nil => intro i _ b hb; exact absurd hb (List.not_mem_nil b)
  | cons ch rest ih =>
    intro i hscan b hb
    unfold scanEscape at hscan
    by_cases hesc : escaped ch > 0
    · rw [if_pos hesc] at hscan; exact Option.noConfusion hscan
    · rw [if_neg hesc] at hscan
      rcases List.mem_cons.mp hb with hb | hb
      · rw [hb]; omega
      · exact ih (i + 1) hscan b hb

theorem scanEscape_some (rest : List Nat) :
    ∀ i j, scanEscape i rest = some j → i ≤ j ∧
      ∀ b ∈ rest.take (j - i), escaped b = 0 := by
  induction rest with
  | nil => intro i j h; exact Option.noConfusion h
  | cons ch rest ih =>
    intro i j hscan
    unfold scanEscape at hscan
    by_cases hesc : escaped ch > 0
    · rw [if_pos hesc] at hscan
      have hj : j = i := (Option.some.injEq _ _ ▸ hscan).symm
      subst hj
      exact ⟨Nat.le_refl _, by simp⟩
    · rw [if_neg hesc] at hscan
      obtain ⟨hij, hall⟩ := ih (i + 1) j hscan
      refine ⟨by omega, ?_⟩
      intro b hb
      have hsub : j - i = (j - (i + 1)) + 1 := by omega
      rw [hsub, List.take_succ_cons] at hb
      rcases List.mem_cons.mp hb with hb | hb
      · rw [hb]; omega
      · exact hall b hb

theorem flatMap_escapeByte_id (l : List Nat) (h : ∀ b ∈ l, escaped b = 0) :
    l.flatMap escapeByte = l := by
  induction l with
  | nil => rfl
  | cons ch rest ih =>
    rw [List.flatMap_cons, escapeByte_pass ch (h ch (List.mem_cons_self ch rest)),
      ih fun b hb => h b (List.mem_cons_of_mem ch hb)]
    rfl

/-- The central characterization of `write_string`: the two-phase algorithm
(fast scan, then the run-flushing complex pass) produces the opening quote,
the per-byte escaping of the input, and the closing quote, appended to the
buffer passed in. -/
theorem write_string_spec (code bs : List Nat) :
    write_string code bs = code ++ 0x22 :: (bs.flatMap escapeByte ++ [0x22]) := by
  unfold write_string
  cases hscan : scanEscape 0 bs with
  | none =>
    rw [flatMap_escapeByte_id bs (scanEscape_none bs 0 hscan)]
    simp
  | some j =>
    obtain ⟨-, hpre⟩ := scanEscape_some bs 0 j hscan
    rw [Nat.sub_zero] at hpre
    dsimp only
    unfold write_string_complex
    rw [escapeLoop_spec bs (bs.drop j) j j rfl (Nat.le_refl _), slice_self,
      List.nil_append]
    have hsplit : bs.flatMap escapeByte = bs.take j ++ (bs.drop j).flatMap escapeByte := by
      conv_lhs => rw [← List.take_append_drop j bs]
      rw [List.flatMap_append, flatMap_escapeByte_id (bs.take j) hpre]
    rw [hsplit]
    simp

/-! ## Claim theorems: string escaping -/

/-- C1: for every input string, `write_string` escapes each byte exactly as
the spec's table says — `"` to `\"`, `\` to `\\`, backspace/tab/LF/FF/CR to
their letter escapes, every other byte below 0x20 to `\u00XX` with `XX` the
two lowercase hex digits of the byte, all other bytes copied through — and
encloses the result in double quotes (`escapeByte` is that per-byte rule,
worded from the spec). -/
theorem c1_write_string_escapes (bs : List Nat) :
    write_string [] bs = 0x22 :: (bs.flatMap escapeByte ++ [0x22]) := by
  have h := write_string_spec [] bs
  rwa [List.nil_append] at h

/-- High (non-ASCII) bytes survive a byte's escaping untouched. -/
theorem escapeByte_filter_high : ∀ b < 256,
    (escapeByte b).filter (fun a => decide (0x80 ≤ a)) =
      [b].filter (fun a => decide (0x80 ≤ a)) := by
  decide

theorem filter_high_flatMap (bs : List Nat) :
    (bs.flatMap escapeByte).filter (fun a => decide (0x80 ≤ a)) =
      bs.filter (fun a => decide (0x80 ≤ a)) := by
  induction bs with
  | nil => rfl
  | cons b rest ih =>
    rw [List.flatMap_cons, List.filter_append, ih, List.filter_cons]
    by_cases hb : b < 256
    · have hfb := escapeByte_filter_high b hb
      rw [hfb, List.filter_cons]
      by_cases hhi : (128 : Nat) ≤ b <;> simp [hhi]
    · rw [escapeByte_pass b (escaped_of_ge b (by omega)), List.filter_cons]
      by_cases hhi : (128 : Nat) ≤ b <;> simp [hhi]

/-- C9: `write_string` is a total function of the raw byte sequence — for
every input, valid text or not (malformed multi-byte sequences, arbitrary
high bytes), it terminates normally with a quote-delimited result, and every
byte outside the ASCII range is copied through as an opaque byte, in order
and multiplicity (the bytes at or above 0x80 of the output are exactly those
of the input). -/
theorem c9_write_string_no_crash (bs : List Nat) :
    (write_string [] bs).head? = some 0x22 ∧
    (write_string [] bs).getLast? = some 0x22 ∧
    (write_string [] bs).filter (fun a => decide (0x80 ≤ a)) =
      bs.filter (fun a => decide (0x80 ≤ a)) := by
  have h := write_string_spec [] bs
  rw [List.nil_append] at h
  refine ⟨by rw [h]; rfl, ?_, ?_⟩
  · rw [h, show (0x22 : Nat) :: (bs.flatMap escapeByte ++ [0x22])
      = (0x22 :: bs.flatMap escapeByte) ++ [0x22] by simp,
      List.getLast?_concat]
  · rw [h, List.filter_cons, List.filter_append, filter_high_flatMap]
    simp

/-! ## Claim theorems: number writing -/

/-- C8: on the not-a-number sentinel, `write_number` writes exactly the
four-byte literal `null`, whatever the decimal-printing collaborator `pd`
is — in particular without invoking it. -/
theorem c8_nan_writes_null (pd : Bool → Nat → Int → List Nat)
    (code : List Nat) (n : Number) (h : n.is_nan = true) :
    write_number pd code n = code ++ [0x6E, 0x75, 0x6C, 0x6C] := by
  cases n with
  | nan => rfl
  | mk p m e => exact absurd h (by simp [Number.is_nan])

/-- Witness for C8 at the sentinel itself, with the real collaborator
model. -/
theorem c8_nan_writes_null_witness :
    Number.nan.is_nan = true ∧
      write_number printDec [] Number.nan = [0x6E, 0x75, 0x6C, 0x6C] :=
  ⟨rfl, c8_nan_writes_null printDec [] Number.nan rfl⟩

/-! ## Claim theorems: shift_remove's debug effects -/

/-- C10: every call of `Object::shift_remove`, key present or not, emits the
`println!` line on standard output and the `dbg!` trace on standard error
before delegating to the map — the operation is not a pure map mutation
(its effect streams are nonempty), and its pure part is exactly the
delegated lookup and order-preserving removal. -/
theorem c10_shift_remove_effects (es : Entries) (k : List Nat) :
    (Object.shift_remove es k).1.1 = ["inner shift remove called"] ∧
    (Object.shift_remove es k).1.2 ≠ [] ∧
    (Object.shift_remove es k).2 = (mapGet es k, mapShiftRemove es k) :=
  ⟨rfl, by simp [Object.shift_remove], rfl⟩

/-! ## Claim theorems: map insertion -/

/-- C6: `insert` on a present key replaces the value in place — the key list
(iteration order) is unchanged, the key now maps to the new value, all other
keys are untouched; `insert` on an absent key appends the entry at the end
of the current order. -/
theorem c6_insert_semantics (es : Entries) (k : List Nat) (v : JsonValue) :
    ((mapGet es k).isSome = true →
       keys (Object.insert es k v) = keys es ∧
       mapGet (Object.insert es k v) k = some v ∧
       ∀ k2, k2 ≠ k → mapGet (Object.insert es k v) k2 = mapGet es k2) ∧
    (mapGet es k = none → Object.insert es k v = es ++ [(k, v)]) := by
  induction es with
  | nil =>
    refine ⟨fun h => ?_, fun _ => rfl⟩
    simp [mapGet] at h
  | cons e rest ih =>
    obtain ⟨k1, v1⟩ := e
    by_cases hk : k1 = k
    · subst hk
      refine ⟨fun _ => ⟨?_, ?_, ?_⟩, fun habs => ?_⟩
      · simp [Object.insert, mapInsert, keys]
      · simp [Object.insert, mapInsert, mapGet]
      · intro k2 hk2
        simp only [Object.insert, mapInsert, if_pos rfl]
        have hne : ¬ k1 = k2 := fun he => hk2 he.symm
        simp [mapGet, hne]
      · simp [mapGet] at habs
    · have hstep : Object.insert ((k1, v1) :: rest) k v
          = (k1, v1) :: Object.insert rest k v := by
        simp [Object.insert, mapInsert, hk]
      have hget : mapGet ((k1, v1) :: rest) k = mapGet rest k := by
        simp [mapGet, hk]
      refine ⟨fun h => ?_, fun habs => ?_⟩
      · obtain ⟨hkeys, hat, hother⟩ := ih.1 (by rwa [hget] at h)
        refine ⟨?_, ?_, ?_⟩
        · rw [hstep]; simp [keys] at hkeys ⊢; exact hkeys
        · rw [hstep]; simp [mapGet, hk]; exact hat
        · intro k2 hk2
          rw [hstep]
          by_cases h12 : k1 = k2
          · simp [mapGet, h12]
          · simp only [mapGet, if_neg h12]
            exact hother k2 hk2
      · rw [hstep, ih.2 (by rwa [hget] at habs)]
        rfl

/-- Witness for C6: a two-entry map; replacing the value at the first key
keeps the key order, and inserting a fresh key appends. -/
theorem c6_insert_semantics_witness :
    (mapGet [([0x61], JsonValue.null), ([0x62], JsonValue.boolean true)] [0x61]).isSome
        = true ∧
    keys (Object.insert [([0x61], JsonValue.null), ([0x62], JsonValue.boolean true)]
        [0x61] (JsonValue.boolean false))
      = keys [([0x61], JsonValue.null), ([0x62], JsonValue.boolean true)] ∧
    mapGet (Object.insert [([0x61], JsonValue.null), ([0x62], JsonValue.boolean true)]
        [0x61] (JsonValue.boolean false)) [0x61] = some (JsonValue.boolean false) ∧
    Object.insert [([0x61], JsonValue.null), ([0x62], JsonValue.boolean true)]
        [0x63] JsonValue.null
      = [([0x61], JsonValue.null), ([0x62], JsonValue.boolean true)]
          ++ [([0x63], JsonValue.null)] := by
  refine ⟨rfl, ?_, ?_, ?_⟩
  · exact ((c6_insert_semantics
      [([0x61], JsonValue.null), ([0x62], JsonValue.boolean true)]
      [0x61] (JsonValue.boolean false)).1 rfl).1
  · exact ((c6_insert_semantics
      [([0x61], JsonValue.null), ([0x62], JsonValue.boolean true)]
      [0x61] (JsonValue.boolean false)).1 rfl).2.1
  · exact (c6_insert_semantics
      [([0x61], JsonValue.null), ([0x62], JsonValue.boolean true)]
      [0x63] JsonValue.null).2 rfl

/-! ## Map lemmas shared by the removal and equality claims -/

theorem dupFree_cons_iff (k : List Nat) (ks : List (List Nat)) :
    dupFree (k :: ks) = true ↔ k ∉ ks ∧ dupFree ks = true := by
  rw [show dupFree (k :: ks) = (!ks.contains k && dupFree ks) from rfl,
    Bool.and_eq_true, Bool.not_eq_true']
  constructor
  · rintro ⟨h1, h2⟩
    exact ⟨by simpa using h1, h2⟩
  · rintro ⟨h1, h2⟩
    exact ⟨by simpa using h1, h2⟩

theorem dupFree_iff_nodup (ks : List (List Nat)) :
    dupFree ks = true ↔ ks.Nodup := by
  induction ks with
  | nil => simp [dupFree]
  | cons k ks ih => rw [dupFree_cons_iff, List.nodup_cons, ih]

theorem mapGet_eq_none_iff (es : Entries) (k : List Nat) :
    mapGet es k = none ↔ k ∉ keys es := by
  induction es with
  | nil => simp [mapGet, keys]
  | cons e rest ih =>
    obtain ⟨k1, v1⟩ := e
    have hkeys : keys ((k1, v1) :: rest) = k1 :: keys rest := rfl
    by_cases hk : k1 = k
    · subst hk
      rw [hkeys]
      simp [mapGet]
    · rw [hkeys, show mapGet ((k1, v1) :: rest) k = mapGet rest k from by
        simp [mapGet, hk], ih]
      constructor
      · intro h hmem
        rcases List.mem_cons.mp hmem with he | hmem
        · exact hk he.symm
        · exact h hmem
      · intro h hmem
        exact h (List.mem_cons_of_mem _ hmem)

theorem mapGet_append_some (A B : Entries) (k : List Nat) (v : JsonValue)
    (h : mapGet A k = some v) : mapGet (A ++ B) k = some v := by
  induction A with
  | nil => exact absurd h (by simp [mapGet])
  | cons e rest ih =>
    obtain ⟨k1, v1⟩ := e
    by_cases hk : k1 = k
    · simpa [mapGet, hk] using (by simpa [mapGet, hk] using h : v1 = v)
    · rw [List.cons_append, show ∀ t, mapGet ((k1, v1) :: t) k = mapGet t k from
        fun t => by simp [mapGet, hk]]
      exact ih (by simpa [mapGet, hk] using h)

theorem mapGet_append_none (A B : Entries) (k : List Nat)
    (h : mapGet A k = none) : mapGet (A ++ B) k = mapGet B k := by
  induction A with
  | nil => rfl
  | cons e rest ih =>
    obtain ⟨k1, v1⟩ := e
    by_cases hk : k1 = k
    · exact absurd h (by simp [mapGet, hk])
    · rw [List.cons_append, show ∀ t, mapGet ((k1, v1) :: t) k = mapGet t k from
        fun t => by simp [mapGet, hk]]
      exact ih (by simpa [mapGet, hk] using h)

/-- A present key splits the entry list around its first occurrence. -/
theorem mapGet_isSome_decomp (es : Entries) (k : List Nat)
    (h : (mapGet es k).isSome = true) :
    ∃ A v B, es = A ++ (k, v) :: B ∧ ∀ e ∈ A, e.1 ≠ k := by
  induction es with
  | nil => simp [mapGet] at h
  | cons e rest ih =>
    obtain ⟨k1, v1⟩ := e
    by_cases hk : k1 = k
    · subst hk
      exact ⟨[], v1, rest, rfl, by simp⟩
    · have hr : (mapGet rest k).isSome = true := by
        simpa [mapGet, hk] using h
      obtain ⟨A, v, B, heq, hA⟩ := ih hr
      refine ⟨(k1, v1) :: A, v, B, by rw [heq]; rfl, ?_⟩
      intro e he
      rcases List.mem_cons.mp he with he | he
      · rw [he]; exact hk
      · exact hA e he

theorem mapShiftRemove_decomp (A B : Entries) (k : List Nat) (v : JsonValue)
    (hA : ∀ e ∈ A, e.1 ≠ k) :
    mapShiftRemove (A ++ (k, v) :: B) k = A ++ B := by
  induction A with
  | nil => simp [mapShiftRemove]
  | cons e rest ih =>
    obtain ⟨k1, v1⟩ := e
    have hk1 : k1 ≠ k := hA (k1, v1) (List.mem_cons_self _ _)
    rw [List.cons_append]
    unfold mapShiftRemove
    rw [if_neg hk1, ih fun e he => hA e (List.mem_cons_of_mem _ he)]
    rfl

theorem findIdx_decomp (A : Entries) (k : List Nat) (v : JsonValue)
    (B : Entries) (hA : ∀ e ∈ A, e.1 ≠ k) :
    ∀ i, List.findIdx? (fun e => e.1 == k) (A ++ (k, v) :: B) i
      = some (i + A.length) := by
  induction A with
  | nil =>
    intro i
    rw [List.nil_append, List.findIdx?_cons]
    simp
  | cons e rest ih =>
    intro i
    have hk1 : ¬ (e.1 == k) = true := by
      simpa using hA e (List.mem_cons_self _ _)
    rw [List.cons_append, List.findIdx?_cons, if_neg hk1,
      ih (fun e he => hA e (List.mem_cons_of_mem _ he)) (i + 1)]
    congr 1
    simp only [List.length_cons]
    omega

/-- Swap removal of the last entry just pops it. -/
theorem mapSwapRemove_last (A : Entries) (k : List Nat) (v : JsonValue)
    (hA : ∀ e ∈ A, e.1 ≠ k) :
    mapSwapRemove (A ++ [(k, v)]) k = A := by
  unfold mapSwapRemove
  rw [findIdx_decomp A k v [] hA 0, List.getLast?_concat]
  dsimp only
  have hset : (A ++ [(k, v)]).set (0 + A.length) (k, v) = A ++ [(k, v)] := by
    rw [Nat.zero_add, List.set_append, if_neg (by omega)]
    simp
  rw [hset, List.dropLast_concat]

/-- Swap removal of a non-final entry overwrites its slot with the last
entry and pops the last slot. -/
theorem mapSwapRemove_mid (A B : Entries) (k : List Nat) (v : JsonValue)
    (hA : ∀ e ∈ A, e.1 ≠ k) (hB : B ≠ []) :
    mapSwapRemove (A ++ (k, v) :: B) k = A ++ B.getLast hB :: B.dropLast := by
  unfold mapSwapRemove
  rw [findIdx_decomp A k v B hA 0]
  have hlast : (A ++ (k, v) :: B).getLast? = some (B.getLast hB) := by
    rw [List.getLast?_append_of_ne_nil A (by simp),
      show (k, v) :: B = [(k, v)] ++ B from rfl,
      List.getLast?_append_of_ne_nil [(k, v)] hB, List.getLast?_eq_getLast _ hB]
  rw [hlast]
  dsimp only
  have hset : (A ++ (k, v) :: B).set (0 + A.length) (B.getLast hB)
      = A ++ B.getLast hB :: B := by
    rw [Nat.zero_add, List.set_append, if_neg (by omega)]
    simp
  rw [hset]
  obtain ⟨D, g, hDg⟩ : ∃ D g, B = D ++ [g] :=
    ⟨B.dropLast, B.getLast hB, (List.dropLast_append_getLast hB).symm⟩
  have hg : B.getLast hB = g := by
    have h1 : B.getLast? = some g := by rw [hDg, List.getLast?_concat]
    have h2 : B.getLast? = some (B.getLast hB) := List.getLast?_eq_getLast _ hB
    exact Option.some.inj (h2.symm.trans h1)
  have hd : B.dropLast = D := by rw [hDg, List.dropLast_concat]
  rw [hg, hd, hDg,
    show A ++ g :: (D ++ [g]) = (A ++ g :: D) ++ [g] by simp,
    List.dropLast_concat]

theorem filter_ne_of_not_mem (ks : List (List Nat)) (k : List Nat)
    (h : ∀ x ∈ ks, x ≠ k) : ks.filter (fun x => !(x == k)) = ks := by
  induction ks with
  | nil => rfl
  | cons a rest ih =>
    rw [List.filter_cons, if_pos (by simpa using h a (List.mem_cons_self _ _)),
      ih fun x hx => h x (List.mem_cons_of_mem _ hx)]

/-! ## Claim theorems: the two removal operations -/

/-- C7: for a present key (in a duplicate-free map), `shift_remove` removes
exactly that entry and iteration yields the remaining keys in their original
relative order (the key list becomes the original key list with the removed
key filtered out); `remove` deletes the same entries up to reordering
(its result is a permutation of `shift_remove`'s), and behaves as if the
vacated slot were swapped with the last occupied slot: when the key is not
in the final slot, the result is the prefix before the hole, then the last
entry, then the middle entries with the last slot popped. -/
theorem c7_removal_order (es : Entries) (k : List Nat)
    (hdup : dupFree (keys es) = true) (hin : (mapGet es k).isSome = true) :
    keys (mapShiftRemove es k) = (keys es).filter (fun x => !(x == k)) ∧
    mapGet (mapShiftRemove es k) k = none ∧
    (∀ k2, k2 ≠ k → mapGet (mapShiftRemove es k) k2 = mapGet es k2) ∧
    (mapSwapRemove es k).Perm (mapShiftRemove es k) ∧
    (∀ i, List.findIdx? (fun e => e.1 == k) es = some i → i + 1 < es.length →
      mapSwapRemove es k
        = es.take i ++ es.getLast?.toList ++ (es.drop (i + 1)).dropLast) := by
  obtain ⟨A, v, B, rfl, hA⟩ := mapGet_isSome_decomp es k hin
  have hkeys : keys (A ++ (k, v) :: B) = keys A ++ k :: keys B := by
    simp [keys]
  have hnodup : (keys A ++ k :: keys B).Nodup := by
    rw [← hkeys, ← dupFree_iff_nodup]
    exact hdup
  have hkB : k ∉ keys B := by
    have := (List.nodup_cons.mp (List.Nodup.of_append_right hnodup)).1
    exact this
  have hshift := mapShiftRemove_decomp A B k v hA
  refine ⟨?_, ?_, ?_, ?_, ?_⟩
  · rw [hshift, hkeys]
    have hab : keys (A ++ B) = keys A ++ keys B := by simp [keys]
    rw [hab, List.filter_append, List.filter_cons,
      filter_ne_of_not_mem (keys A) k (by
        intro x hx he
        obtain ⟨e, hme, hfst⟩ := List.mem_map.mp hx
        exact hA e hme (hfst.trans he)),
      filter_ne_of_not_mem (keys B) k (by
        intro x hx he
        exact hkB (he ▸ hx))]
    simp
  · rw [hshift, mapGet_eq_none_iff]
    intro hmem
    rw [show keys (A ++ B) = keys A ++ keys B by simp [keys],
      List.mem_append] at hmem
    rcases hmem with hmem | hmem
    · obtain ⟨e, he, hfst⟩ := List.mem_map.mp hmem
      exact hA e he hfst
    · exact hkB hmem
  · intro k2 hk2
    rw [hshift]
    cases hA2 : mapGet A k2 with
    | some w =>
      rw [mapGet_append_some A B k2 w hA2, mapGet_append_some A ((k, v) :: B) k2 w hA2]
    | none =>
      rw [mapGet_append_none A B k2 hA2, mapGet_append_none A ((k, v) :: B) k2 hA2]
      have hne : ¬ k = k2 := fun he => hk2 he.symm
      simp [mapGet, hne]
  · cases B with
    | nil =>
      rw [mapSwapRemove_last A k v hA, hshift, List.append_nil]
    | cons b0 B0 =>
      rw [mapSwapRemove_mid A (b0 :: B0) k v hA (by simp), hshift]
      refine List.Perm.append_left A ?_
      conv_rhs => rw [← List.dropLast_append_getLast (l := b0 :: B0) (by simp)]
      exact (List.perm_append_singleton _ _).symm
  · intro i hidx hlt
    rw [findIdx_decomp A k v B hA 0, Nat.zero_add] at hidx
    obtain rfl : A.length = i := (Option.some.inj hidx)
    have hBne : B ≠ [] := by
      intro hBnil
      subst hBnil
      simp at hlt
    have htake : (A ++ (k, v) :: B).take A.length = A := by
      rw [List.take_append_of_le_length (Nat.le_refl _), List.take_length]
    have hdrop : (A ++ (k, v) :: B).drop (A.length + 1) = B := by
      rw [show A ++ (k, v) :: B = (A ++ [(k, v)]) ++ B by simp,
        show A.length + 1 = (A ++ [(k, v)]).length by simp,
        List.drop_left]
    have hlast : (A ++ (k, v) :: B).getLast? = some (B.getLast hBne) := by
      rw [List.getLast?_append_of_ne_nil A (by simp),
        show (k, v) :: B = [(k, v)] ++ B from rfl,
        List.getLast?_append_of_ne_nil [(k, v)] hBne, List.getLast?_eq_getLast _ hBne]
    rw [mapSwapRemove_mid A B k v hA hBne, htake, hdrop, hlast]
    simp

/-- Witness for C7: a three-entry map with the first key removed; the
hypotheses hold by computation and the conclusion is the theorem's. -/
theorem c7_removal_order_witness :
    dupFree (keys [([1], JsonValue.null), ([2], JsonValue.boolean true),
        ([3], JsonValue.boolean false)]) = true ∧
    (mapGet [([1], JsonValue.null), ([2], JsonValue.boolean true),
        ([3], JsonValue.boolean false)] [1]).isSome = true ∧
    keys (mapShiftRemove [([1], JsonValue.null), ([2], JsonValue.boolean true),
        ([3], JsonValue.boolean false)] [1])
      = (keys [([1], JsonValue.null), ([2], JsonValue.boolean true),
          ([3], JsonValue.boolean false)]).filter (fun x => !(x == [1])) ∧
    (mapSwapRemove [([1], JsonValue.null), ([2], JsonValue.boolean true),
        ([3], JsonValue.boolean false)] [1]).Perm
      (mapShiftRemove [([1], JsonValue.null), ([2], JsonValue.boolean true),
        ([3], JsonValue.boolean false)] [1]) :=
  ⟨by decide, rfl,
   (c7_removal_order [([1], JsonValue.null), ([2], JsonValue.boolean true),
      ([3], JsonValue.boolean false)] [1] (by decide) rfl).1,
   (c7_removal_order [([1], JsonValue.null), ([2], JsonValue.boolean true),
      ([3], JsonValue.boolean false)] [1] (by decide) rfl).2.2.2.1⟩

/-! ## Claim theorems: object equality -/


theorem mapGet_mem {es : Entries} {k : List Nat} {v : JsonValue}
    (h : mapGet es k = some v) : (k, v) ∈ es := by
  induction es with
  | nil => simp [mapGet] at h
  | cons e rest ih =>
    obtain ⟨k1, v1⟩ := e
    by_cases hk : k1 = k
    · subst hk
      have hv : v1 = v := by simpa [mapGet] using h
      rw [← hv]
      exact List.mem_cons_self _ _
    · exact List.mem_cons_of_mem _ (ih (by simpa [mapGet, hk] using h))

theorem mapGet_of_mem_nodup {es : Entries} (hdup : dupFree (keys es) = true)
    {k : List Nat} {v : JsonValue} (hm : (k, v) ∈ es) : mapGet es k = some v := by
  induction es with
  | nil => simp at hm
  | cons e rest ih =>
    obtain ⟨k1, v1⟩ := e
    have hcons : k1 ∉ keys rest ∧ dupFree (keys rest) = true :=
      (dupFree_cons_iff k1 (keys rest)).mp hdup
    rcases List.mem_cons.mp hm with he | hm2
    · have hk : k = k1 := congrArg Prod.fst he
      have hv : v = v1 := congrArg Prod.snd he
      rw [← hk, ← hv]
      simp [mapGet]
    · by_cases hk : k1 = k
      · subst hk
        exact absurd (List.mem_map.mpr ⟨(k1, v), hm2, rfl⟩) hcons.1
      · rw [show mapGet ((k1, v1) :: rest) k = mapGet rest k from by
          simp [mapGet, hk]]
        exact ih hcons.2 hm2

theorem objectSub_cons_some {b : Entries} {k : List Nat} {w : JsonValue}
    (v : JsonValue) (rest : Entries) (hbk : mapGet b k = some w) :
    objectSub ((k, v) :: rest) b = (jsonEq v w && objectSub rest b) := by
  conv_lhs => rw [objectSub]
  congr 1
  split
  · rename_i w2 heq
    rw [hbk] at heq
    rw [Option.some.inj heq]
  · rename_i heq
    rw [hbk] at heq
    exact Option.noConfusion heq

theorem objectSub_cons_none {b : Entries} {k : List Nat}
    (v : JsonValue) (rest : Entries) (hbk : mapGet b k = none) :
    objectSub ((k, v) :: rest) b = false := by
  conv_lhs => rw [objectSub]
  have hm : (match h : mapGet b k with
      | some w => jsonEq v w
      | none => false) = false := by
    split
    · rename_i w2 heq
      rw [hbk] at heq
      exact Option.noConfusion heq
    · rfl
  rw [hm, Bool.false_and]

theorem objectSub_iff (a b : Entries) :
    objectSub a b = true
      ↔ ∀ k v, (k, v) ∈ a → ∃ w, mapGet b k = some w ∧ jsonEq v w = true := by
  induction a with
  | nil =>
    constructor
    · intro _ k v hm
      exact absurd hm (List.not_mem_nil _)
    · intro _
      unfold objectSub
      rfl
  | cons e rest ih =>
    obtain ⟨k1, v1⟩ := e
    constructor
    · intro hsub k v hm
      rcases List.mem_cons.mp hm with he | hm2
      · have hk : k = k1 := congrArg Prod.fst he
        have hv : v = v1 := congrArg Prod.snd he
        subst hk
        subst hv
        cases hbk : mapGet b k with
        | some w =>
          rw [objectSub_cons_some v rest hbk, Bool.and_eq_true] at hsub
          exact ⟨w, rfl, hsub.1⟩
        | none =>
          rw [objectSub_cons_none v rest hbk] at hsub
          exact Bool.noConfusion hsub
      · cases hbk : mapGet b k1 with
        | some w =>
          rw [objectSub_cons_some v1 rest hbk, Bool.and_eq_true] at hsub
          exact (ih.mp hsub.2) k v hm2
        | none =>
          rw [objectSub_cons_none v1 rest hbk] at hsub
          exact Bool.noConfusion hsub
    · intro h
      obtain ⟨w, hw, hjw⟩ := h k1 v1 (List.mem_cons_self _ _)
      rw [objectSub_cons_some v1 rest hw, Bool.and_eq_true]
      exact ⟨hjw, ih.mpr fun k v hm => h k v (List.mem_cons_of_mem _ hm)⟩

theorem objectSub_keys_subset {a b : Entries} (h : objectSub a b = true) :
    keys a ⊆ keys b := by
  intro k hk
  obtain ⟨e, he, hfst⟩ := List.mem_map.mp hk
  obtain ⟨k0, v0⟩ := e
  obtain ⟨w, hw, -⟩ := (objectSub_iff a b).mp h k0 v0 (by
    cases hfst
    exact he)
  cases hfst
  by_contra hnk
  rw [(mapGet_eq_none_iff b k0).mpr hnk] at hw
  exact Option.noConfusion hw

/-- C5: for duplicate-free Objects, the source's `PartialEq` holds iff every
key's lookup agrees in the two maps (same key set, equal values at every
key) — independent of entry order; and in particular two Objects built by
inserting the same pairs in different orders are equal. -/
theorem c5_object_equality (a b : Entries)
    (ha : dupFree (keys a) = true) (hb : dupFree (keys b) = true) :
    (objectEq a b = true ↔ ∀ k, optEq (mapGet a k) (mapGet b k) = true) ∧
    objectEq
      (Object.insert (Object.insert [] [0x61] (JsonValue.boolean true))
        [0x62] JsonValue.null)
      (Object.insert (Object.insert [] [0x62] JsonValue.null)
        [0x61] (JsonValue.boolean true)) = true := by
  constructor
  · unfold objectEq
    rw [Bool.and_eq_true, Nat.beq_eq_true_eq]
    constructor
    · rintro ⟨hlen, hsub⟩ k
      cases hak : mapGet a k with
      | some v =>
        obtain ⟨w, hw, hjw⟩ := (objectSub_iff a b).mp hsub k v (mapGet_mem hak)
        rw [hw]
        exact hjw
      | none =>
        have hka : k ∉ keys a := (mapGet_eq_none_iff a k).mp hak
        cases hbk : mapGet b k with
        | some w =>
          exfalso
          have hkb : k ∈ keys b := by
            by_contra hnk
            rw [(mapGet_eq_none_iff b k).mpr hnk] at hbk
            exact Option.noConfusion hbk
          have hsubset : keys a ⊆ (keys b).erase k := by
            intro x hx
            refine (List.mem_erase_of_ne fun he => hka ?_).mpr
              (objectSub_keys_subset hsub hx)
            rw [← he]
            exact hx
          have hlen1 : (keys a).length ≤ ((keys b).erase k).length :=
            (List.Nodup.subperm ((dupFree_iff_nodup _).mp ha) hsubset).length_le
          have hlen2 : ((keys b).erase k).length = (keys b).length - 1 :=
            List.length_erase_of_mem hkb
          have hlk : (keys a).length = (keys b).length := by
            simp only [keys, List.length_map]
            exact hlen
          have hpos : 0 < (keys b).length := List.length_pos.mpr
            (fun hnil => by rw [hnil] at hkb; exact List.not_mem_nil _ hkb)
          omega
        | none => rfl
    · intro h
      have hsub : objectSub a b = true := by
        rw [objectSub_iff]
        intro k v hm
        have hak : mapGet a k = some v := mapGet_of_mem_nodup ha hm
        have := h k
        rw [hak] at this
        cases hbk : mapGet b k with
        | some w =>
          rw [hbk] at this
          exact ⟨w, rfl, this⟩
        | none =>
          rw [hbk] at this
          exact Bool.noConfusion this
      refine ⟨?_, hsub⟩
      have hab : keys a ⊆ keys b := objectSub_keys_subset hsub
      have hba : keys b ⊆ keys a := by
        intro k hk
        by_contra hnk
        have h1 := h k
        rw [(mapGet_eq_none_iff a k).mpr hnk] at h1
        cases hbk : mapGet b k with
        | some w =>
          rw [hbk] at h1
          exact Bool.noConfusion h1
        | none =>
          exact (mapGet_eq_none_iff b k).mp hbk hk
      have h1 := (List.Nodup.subperm ((dupFree_iff_nodup _).mp ha) hab).length_le
      have h2 := (List.Nodup.subperm ((dupFree_iff_nodup _).mp hb) hba).length_le
      simp only [keys, List.length_map] at h1 h2
      omega
  · simp [Object.insert, mapInsert, objectEq, objectSub, mapGet, jsonEq]

/-- Witness for C5 at the two insertion orders of the same pairs. -/
theorem c5_object_equality_witness :
    dupFree (keys (Object.insert (Object.insert [] [0x61]
        (JsonValue.boolean true)) [0x62] JsonValue.null)) = true ∧
    objectEq
      (Object.insert (Object.insert [] [0x61] (JsonValue.boolean true))
        [0x62] JsonValue.null)
      (Object.insert (Object.insert [] [0x62] JsonValue.null)
        [0x61] (JsonValue.boolean true)) = true :=
  ⟨by decide,
   (c5_object_equality
     (Object.insert (Object.insert [] [0x61] (JsonValue.boolean true))
       [0x62] JsonValue.null)
     (Object.insert (Object.insert [] [0x62] JsonValue.null)
       [0x61] (JsonValue.boolean true))
     (by decide) (by decide)).2⟩

/-! ## Claim theorems: empty containers -/

/-- C4: an empty object serializes to exactly the two bytes `{}` and an
empty array to exactly `[]`, with no interior whitespace, in every mode:
the compact owned-buffer generator (also through `Object::dump`), the
pretty owned-buffer generator at every indent width (also through
`Object::pretty`), the compact sink-backed generator over an arbitrary sink
(exactly two single-byte writes) and over a recording sink, and the pretty
sink-backed generator over a recording sink at every indent width. -/
theorem c4_empty_containers :
    write_object ([] : List Nat) ([] : Entries) = [0x7B, 0x7D] ∧
    Object.dump ([] : Entries) = [0x7B, 0x7D] ∧
    write_json [] (.object []) = [0x7B, 0x7D] ∧
    write_json [] (.array []) = [0x5B, 0x5D] ∧
    (∀ spaces : Nat, Object.pretty spaces [] = [0x7B, 0x7D]) ∧
    (∀ spaces : Nat,
      pretty_write_json spaces ([], 0) (.object []) = ([0x7B, 0x7D], 0)) ∧
    (∀ spaces : Nat,
      pretty_write_json spaces ([], 0) (.array []) = ([0x5B, 0x5D], 0)) ∧
    (∀ (W : Type) (snk : Sink W) (w : W),
      writer_write_json snk w (.object [])
        = (snk.writeAll w [0x7B]).bind fun w1 => snk.writeAll w1 [0x7D]) ∧
    (∀ (W : Type) (snk : Sink W) (w : W),
      writer_write_json snk w (.array [])
        = (snk.writeAll w [0x5B]).bind fun w1 => snk.writeAll w1 [0x5D]) ∧
    writer_write_json recSink [] (.object []) = some [0x7B, 0x7D] ∧
    writer_write_json recSink [] (.array []) = some [0x5B, 0x5D] ∧
    (∀ spaces : Nat, pwriter_write_json recSink spaces ([], 0) (.object [])
      = some ([0x7B, 0x7D], 0)) ∧
    (∀ spaces : Nat, pwriter_write_json recSink spaces ([], 0) (.array [])
      = some ([0x5B, 0x5D], 0)) := by
  refine ⟨?_, ?_, ?_, ?_, fun _ => ?_, fun _ => ?_, fun _ => ?_,
    fun W snk w => ?_, fun W snk w => ?_, ?_, ?_, fun _ => ?_, fun _ => ?_⟩
  · simp [write_object]
  · simp [Object.dump, write_object]
  · simp [write_json, write_object]
  · simp [write_json]
  · simp [Object.pretty, pretty_write_object]
  · simp [pretty_write_json, pretty_write_object]
  · simp [pretty_write_json]
  · simp [writer_write_json, writer_write_object]
  · simp [writer_write_json]
  · simp [writer_write_json, writer_write_object, recSink]
  · simp [writer_write_json, recSink]
  · simp [pwriter_write_json, pwriter_write_object, recSink]
  · simp [pwriter_write_json, recSink]

/-! ## Claim theorems: pretty formatting -/

theorem write_string_append (code bs : List Nat) :
    write_string code bs = code ++ write_string [] bs := by
  rw [write_string_spec, write_string_spec, List.nil_append]

theorem write_number_append (pd : Bool → Nat → Int → List Nat)
    (code : List Nat) (n : Number) :
    write_number pd code n = code ++ write_number pd [] n := by
  cases n <;> simp [write_number]

mutual
/-- The pretty generator appends exactly the spec-worded pretty rendering of
the value at the current depth, and leaves the depth unchanged. -/
theorem pretty_json_spec : ∀ (spaces : Nat) (v : JsonValue) (code : List Nat)
    (dent : Nat),
    pretty_write_json spaces (code, dent) v = (code ++ prettySpec spaces dent v, dent)
  | spaces, .null, code, dent => by
    simp [pretty_write_json, prettySpec]
  | spaces, .boolean true, code, dent => by
    simp [pretty_write_json, prettySpec]
  | spaces, .boolean false, code, dent => by
    simp [pretty_write_json, prettySpec]
  | spaces, .number n, code, dent => by
    simp only [pretty_write_json, prettySpec]
    rw [write_number_append]
  | spaces, .string s, code, dent => by
    simp only [pretty_write_json, prettySpec]
    rw [write_string_append]
  | spaces, .array [], code, dent => by
    simp [pretty_write_json, prettySpec]
  | spaces, .array (x :: xs), code, dent => by
    simp only [pretty_write_json, pretty_new_line]
    rw [pretty_json_spec spaces x, pretty_items_spec spaces xs]
    simp [prettySpec, nlIndent, Nat.mul_comm spaces, List.append_assoc]
  | spaces, .object es, code, dent => by
    rw [show pretty_write_json spaces (code, dent) (.object es)
        = pretty_write_object spaces (code, dent) es from by
      simp [pretty_write_json]]
    exact pretty_object_spec spaces es code dent
termination_by _ v _ _ => sizeOf v

theorem pretty_items_spec : ∀ (spaces : Nat) (xs : List JsonValue)
    (code : List Nat) (dent : Nat),
    pretty_write_items spaces (code, dent) xs
      = (code ++ prettySpecItems spaces dent xs, dent)
  | spaces, [], code, dent => by
    simp [pretty_write_items, prettySpecItems]
  | spaces, x :: xs, code, dent => by
    simp only [pretty_write_items, pretty_new_line]
    rw [pretty_json_spec spaces x, pretty_items_spec spaces xs]
    simp [prettySpecItems, nlIndent, Nat.mul_comm spaces, List.append_assoc]
termination_by _ xs _ _ => sizeOf xs

theorem pretty_object_spec : ∀ (spaces : Nat) (es : Entries) (code : List Nat)
    (dent : Nat),
    pretty_write_object spaces (code, dent) es
      = (code ++ prettySpec spaces dent (.object es), dent)
  | spaces, [], code, dent => by
    simp [pretty_write_object, prettySpec]
  | spaces, (k, v) :: rest, code, dent => by
    simp only [pretty_write_object, pretty_new_line]
    rw [write_string_append, pretty_json_spec spaces v,
      pretty_entries_spec spaces rest]
    simp [prettySpec, nlIndent, Nat.mul_comm spaces, List.append_assoc]
termination_by _ es _ _ => sizeOf es

theorem pretty_entries_spec : ∀ (spaces : Nat) (es : Entries)
    (code : List Nat) (dent : Nat),
    pretty_write_entries spaces (code, dent) es
      = (code ++ prettySpecEntries spaces dent es, dent)
  | spaces, [], code, dent => by
    simp [pretty_write_entries, prettySpecEntries]
  | spaces, (k, v) :: rest, code, dent => by
    simp only [pretty_write_entries, pretty_new_line]
    rw [write_string_append, pretty_json_spec spaces v,
      pretty_entries_spec spaces rest]
    simp [prettySpecEntries, nlIndent, Nat.mul_comm spaces, List.append_assoc]
termination_by _ es _ _ => sizeOf es
end

/-- C3: pretty serialization emits, after `{` or `[` with at least one
entry, before every subsequent entry, and before the closing bracket, a
line feed followed by `N × depth` spaces with the depth one greater inside
the brackets (depth 1 inside the first nesting level, since the outermost
call is at depth 0), and separates keys from values with `: ` — the pretty
generator's output is exactly the spec-worded `prettySpec` rendering at
every indent width, value and depth; and in particular `Object::pretty(2)`
of `{"a":[1,2]}` is exactly the text `{\n  "a": [\n    1,\n    2\n  ]\n}`. -/
theorem c3_pretty_indentation :
    (∀ (N : Nat) (v : JsonValue) (code : List Nat) (d : Nat),
       pretty_write_json N (code, d) v = (code ++ prettySpec N d v, d)) ∧
    Object.pretty 2 [([0x61], JsonValue.array
        [.number (.mk true 1 0), .number (.mk true 2 0)])]
      = [0x7B, 0x0A, 0x20, 0x20, 0x22, 0x61, 0x22, 0x3A, 0x20, 0x5B, 0x0A,
         0x20, 0x20, 0x20, 0x20, 0x31, 0x2C, 0x0A, 0x20, 0x20, 0x20, 0x20,
         0x32, 0x0A, 0x20, 0x20, 0x5D, 0x0A, 0x7D] := by
  refine ⟨pretty_json_spec, ?_⟩
  have hstr : write_string [] [0x61] = [0x22, 0x61, 0x22] := rfl
  have hnum1 : write_number printDec [] (Number.mk true 1 0) = [0x31] := by
    simp [write_number, printDec, decDigits, decDigitsAux]
  have hnum2 : write_number printDec [] (Number.mk true 2 0) = [0x32] := by
    simp [write_number, printDec, decDigits, decDigitsAux]
  rw [show Object.pretty 2 [([0x61], JsonValue.array
      [.number (.mk true 1 0), .number (.mk true 2 0)])]
    = (pretty_write_object 2 ([], 0) [([0x61], JsonValue.array
        [.number (.mk true 1 0), .number (.mk true 2 0)])]).1 from rfl,
    pretty_object_spec]
  simp [prettySpec, prettySpecItems, prettySpecEntries, nlIndent, hstr,
    hnum1, hnum2, List.replicate]


/-! ## The compact writer in append-normal form -/

mutual
theorem write_json_append : ∀ (v : JsonValue) (code : List Nat),
    write_json code v = code ++ write_json [] v
  | .null, code => by simp [write_json]
  | .boolean true, code => by simp [write_json]
  | .boolean false, code => by simp [write_json]
  | .number n, code => by
    simp only [write_json]
    rw [write_number_append]
  | .string s, code => by
    simp only [write_json]
    rw [write_string_append]
  | .array [], code => by simp [write_json]
  | .array (x :: xs), code => by
    simp only [write_json]
    rw [write_items_append xs (write_json (code ++ [0x5B]) x),
      write_json_append x (code ++ [0x5B]),
      write_json_append x ([] ++ [0x5B]),
      write_items_append xs (([] ++ [0x5B]) ++ write_json [] x)]
    simp
  | .object es, code => by
    simp only [write_json]
    exact write_object_append es code
termination_by v _ => sizeOf v

theorem write_items_append : ∀ (xs : List JsonValue) (code : List Nat),
    write_items code xs = code ++ write_items [] xs
  | [], code => by simp [write_items]
  | x :: xs, code => by
    simp only [write_items]
    rw [write_items_append xs (write_json (code ++ [0x2C]) x),
      write_json_append x (code ++ [0x2C]),
      write_json_append x ([] ++ [0x2C]),
      write_items_append xs (([] ++ [0x2C]) ++ write_json [] x)]
    simp
termination_by xs _ => sizeOf xs

theorem write_object_append : ∀ (es : Entries) (code : List Nat),
    write_object code es = code ++ write_object [] es
  | [], code => by simp [write_object]
  | (k, v) :: rest, code => by
    simp only [write_object]
    rw [write_entries_append rest
        (write_json (write_string (code ++ [0x7B]) k ++ [0x3A]) v),
      write_json_append v (write_string (code ++ [0x7B]) k ++ [0x3A]),
      write_string_append (code ++ [0x7B]),
      write_string_append ([] ++ [0x7B]),
      write_json_append v ((([] ++ [0x7B]) ++ write_string [] k) ++ [0x3A]),
      write_entries_append rest
        (((([] ++ [0x7B]) ++ write_string [] k) ++ [0x3A]) ++ write_json [] v)]
    simp
termination_by es _ => sizeOf es

theorem write_entries_append : ∀ (es : Entries) (code : List Nat),
    write_entries code es = code ++ write_entries [] es
  | [], code => by simp [write_entries]
  | (k, v) :: rest, code => by
    simp only [write_entries]
    rw [write_entries_append rest
        (write_json (write_string (code ++ [0x2C]) k ++ [0x3A]) v),
      write_json_append v (write_string (code ++ [0x2C]) k ++ [0x3A]),
      write_string_append (code ++ [0x2C]),
      write_string_append ([] ++ [0x2C]),
      write_json_append v ((([] ++ [0x2C]) ++ write_string [] k) ++ [0x3A]),
      write_entries_append rest
        (((([] ++ [0x2C]) ++ write_string [] k) ++ [0x3A]) ++ write_json [] v)]
    simp
termination_by es _ => sizeOf es
end

theorem dj_null : write_json [] .null = [0x6E, 0x75, 0x6C, 0x6C] := by
  simp [write_json, nullBytes]

theorem dj_true : write_json [] (.boolean true) = [0x74, 0x72, 0x75, 0x65] := by
  simp [write_json, trueBytes]

theorem dj_false : write_json [] (.boolean false)
    = [0x66, 0x61, 0x6C, 0x73, 0x65] := by
  simp [write_json, falseBytes]

theorem dj_number (n : Number) :
    write_json [] (.number n) = write_number printDec [] n := by
  simp only [write_json]

theorem dj_string (s : List Nat) : write_json [] (.string s)
    = 0x22 :: (s.flatMap escapeByte ++ [0x22]) := by
  simp only [write_json]
  rw [write_string_spec]
  simp

theorem dj_array_nil : write_json [] (.array []) = [0x5B, 0x5D] := by
  simp [write_json]

theorem dj_array_cons (x : JsonValue) (xs : List JsonValue) :
    write_json [] (.array (x :: xs))
      = 0x5B :: (write_json [] x ++ (write_items [] xs ++ [0x5D])) := by
  simp only [write_json]
  rw [write_items_append xs, write_json_append x]
  simp

theorem wi_nil : write_items [] ([] : List JsonValue) = [] := by
  simp [write_items]

theorem wi_cons (x : JsonValue) (xs : List JsonValue) :
    write_items [] (x :: xs)
      = 0x2C :: (write_json [] x ++ write_items [] xs) := by
  simp only [write_items]
  rw [write_items_append xs, write_json_append x]
  simp

theorem dj_object (es : Entries) :
    write_json [] (.object es) = write_object [] es := by
  simp only [write_json]

theorem wo_nil : write_object [] ([] : Entries) = [0x7B, 0x7D] := by
  simp [write_object]

theorem wo_cons (k : List Nat) (v : JsonValue) (rest : Entries) :
    write_object [] ((k, v) :: rest)
      = 0x7B :: (write_string [] k
          ++ 0x3A :: (write_json [] v ++ (write_entries [] rest ++ [0x7D]))) := by
  simp only [write_object]
  rw [write_entries_append rest, write_json_append v, write_string_append]
  simp

theorem we_nil : write_entries [] ([] : Entries) = [] := by
  simp [write_entries]

theorem we_cons (k : List Nat) (v : JsonValue) (rest : Entries) :
    write_entries [] ((k, v) :: rest)
      = 0x2C :: (write_string [] k
          ++ 0x3A :: (write_json [] v ++ write_entries [] rest)) := by
  simp only [write_entries]
  rw [write_entries_append rest, write_json_append v, write_string_append]
  simp

/-! ## Decimal digits invert -/

theorem decDigitsAux_acc (n : Nat) : ∀ acc : List Nat,
    decDigitsAux n acc = decDigits n ++ acc := by
  induction n using Nat.strongRecOn with
  | ind n ih =>
    intro acc
    unfold decDigits
    conv_lhs => rw [decDigitsAux]
    conv_rhs => rw [decDigitsAux]
    by_cases h : n < 10
    · simp [h]
    · rw [if_neg h, if_neg h, ih (n / 10) (Nat.div_lt_self (by omega) (by omega)),
        ih (n / 10) (Nat.div_lt_self (by omega) (by omega))
          ((0x30 + n % 10) :: ([] : List Nat))]
      simp

theorem decDigits_step (n : Nat) :
    decDigits n = (if n < 10 then [] else decDigits (n / 10)) ++ [0x30 + n % 10] := by
  conv_lhs => unfold decDigits; rw [decDigitsAux]
  by_cases h : n < 10
  · simp [h]
  · rw [if_neg h, if_neg h, decDigitsAux_acc]

theorem decDigits_ne_nil (n : Nat) : decDigits n ≠ [] := by
  rw [decDigits_step]
  simp

theorem decDigits_all_digit (n : Nat) : ∀ b ∈ decDigits n, isDigitB b = true := by
  induction n using Nat.strongRecOn with
  | ind n ih =>
    rw [decDigits_step]
    intro b hb
    rcases List.mem_append.mp hb with hb | hb
    · by_cases h : n < 10
      · rw [if_pos h] at hb
        exact absurd hb (List.not_mem_nil _)
      · rw [if_neg h] at hb
        exact ih (n / 10) (Nat.div_lt_self (by omega) (by omega)) b hb
    · have hbe : b = 0x30 + n % 10 := List.mem_singleton.mp hb
      have hlt : n % 10 < 10 := Nat.mod_lt _ (by omega)
      rw [hbe]
      unfold isDigitB
      simp only [decide_eq_true_eq]
      omega

theorem digitsVal_decDigits (n : Nat) : digitsVal (decDigits n) = n := by
  induction n using Nat.strongRecOn with
  | ind n ih =>
    rw [decDigits_step]
    unfold digitsVal
    rw [List.foldl_append]
    by_cases h : n < 10
    · simp only [if_pos h, List.foldl_nil, List.foldl_cons]
      omega
    · simp only [if_neg h, List.foldl_cons, List.foldl_nil]
      have := ih (n / 10) (Nat.div_lt_self (by omega) (by omega))
      unfold digitsVal at this
      rw [this]
      omega

theorem takeDigits_stop {r : List Nat} (h : numDelimB r = true) :
    takeDigits r = ([], r) := by
  cases r with
  | nil => rfl
  | cons b t =>
    unfold numDelimB at h
    rw [Bool.not_eq_true', Bool.or_eq_false_iff] at h
    unfold takeDigits
    rw [if_neg (by rw [h.1]; exact Bool.false_ne_true)]

theorem takeDigits_not_digit {b : Nat} {t : List Nat} (h : isDigitB b = false) :
    takeDigits (b :: t) = ([], b :: t) := by
  unfold takeDigits
  rw [if_neg (by rw [h]; exact Bool.false_ne_true)]

theorem takeDigits_run (ds : List Nat) (hds : ∀ b ∈ ds, isDigitB b = true)
    (rest : List Nat) (hrest : takeDigits rest = ([], rest)) :
    takeDigits (ds ++ rest) = (ds, rest) := by
  induction ds with
  | nil => simpa using hrest
  | cons d t ih =>
    have hd : isDigitB d = true := hds d (List.mem_cons_self _ _)
    rw [List.cons_append]
    unfold takeDigits
    rw [if_pos hd, ih fun b hb => hds b (List.mem_cons_of_mem _ hb)]

theorem digit_byte_range {b : Nat} (h : isDigitB b = true) :
    0x30 ≤ b ∧ b ≤ 0x39 := by
  unfold isDigitB at h
  simpa using h

theorem decDigits_head (m : Nat) :
    ∃ d t, decDigits m = d :: t ∧ isDigitB d = true := by
  cases hd : decDigits m with
  | nil => exact absurd hd (decDigits_ne_nil m)
  | cons d t =>
    exact ⟨d, t, rfl, decDigits_all_digit m d (hd ▸ List.mem_cons_self _ _)⟩

theorem parseExpDigits_spec_neg (pos : Bool) (m : Nat) (a : Nat)
    (rest : List Nat) (hr : numDelimB rest = true) :
    parseExpDigits pos m true (decDigits a ++ rest)
      = some (.mk pos m (-(a : Int)), rest) := by
  unfold parseExpDigits
  rw [takeDigits_run _ (decDigits_all_digit a) _ (takeDigits_stop hr)]
  rw [if_neg (by simpa using decDigits_ne_nil a)]
  simp [digitsVal_decDigits]

theorem parseExpDigits_spec_pos (pos : Bool) (m : Nat) (a : Nat)
    (rest : List Nat) (hr : numDelimB rest = true) :
    parseExpDigits pos m false (decDigits a ++ rest)
      = some (.mk pos m (a : Int), rest) := by
  unfold parseExpDigits
  rw [takeDigits_run _ (decDigits_all_digit a) _ (takeDigits_stop hr)]
  rw [if_neg (by simpa using decDigits_ne_nil a)]
  simp [digitsVal_decDigits]

theorem parseNumberBody_spec (pos : Bool) (m : Nat) (e : Int) (rest : List Nat)
    (hr : numDelimB rest = true) :
    parseNumberBody pos
        (decDigits m ++ ((if e = 0 then [] else 0x65 :: intDigits e) ++ rest))
      = some (.mk pos m e, rest) := by
  by_cases he : e = 0
  · rw [if_pos he, List.nil_append]
    unfold parseNumberBody
    rw [takeDigits_run _ (decDigits_all_digit m) _ (takeDigits_stop hr)]
    rw [if_neg (by simpa using decDigits_ne_nil m)]
    simp only [digitsVal_decDigits]
    subst he
    cases rest with
    | nil => rfl
    | cons c t =>
      unfold numDelimB at hr
      rw [Bool.not_eq_true', Bool.or_eq_false_iff] at hr
      have hc : ¬ c = 0x65 := by
        intro hce
        rw [hce] at hr
        simpa using hr.2
      simp [hc]
  · rw [if_neg he]
    unfold parseNumberBody
    have h65 : isDigitB 0x65 = false := by decide
    rw [show (0x65 :: intDigits e ++ rest) = 0x65 :: (intDigits e ++ rest) from rfl,
      takeDigits_run _ (decDigits_all_digit m) _ (takeDigits_not_digit h65)]
    rw [if_neg (by simpa using decDigits_ne_nil m)]
    simp only [digitsVal_decDigits]
    rw [if_true]
    by_cases hneg : e < 0
    · have hint : intDigits e ++ rest = 0x2D :: (decDigits e.natAbs ++ rest) := by
        simp [intDigits, hneg]
      have hea : -(e.natAbs : Int) = e := by omega
      rw [hint]
      dsimp only
      rw [if_pos rfl, parseExpDigits_spec_neg pos m e.natAbs rest hr, hea]
    · obtain ⟨d1, t1, he0, hd1⟩ := decDigits_head e.natAbs
      obtain ⟨h130, h139⟩ := digit_byte_range hd1
      have hint : intDigits e ++ rest = d1 :: (t1 ++ rest) := by
        simp [intDigits, hneg, he0]
      rw [hint]
      dsimp only
      have hne1 : ¬ d1 = 0x2D := by omega
      have hne2 : ¬ d1 = 0x2B := by omega
      rw [if_neg hne1, if_neg hne2,
        show d1 :: (t1 ++ rest) = (d1 :: t1) ++ rest from rfl, ← he0,
        parseExpDigits_spec_pos pos m e.natAbs rest hr,
        (by omega : (e.natAbs : Int) = e)]

/-- The number reader inverts the modelled decimal printer whenever the
remainder cannot extend the number. -/
theorem parseNumber_printDec (p : Bool) (m : Nat) (e : Int) (rest : List Nat)
    (hr : numDelimB rest = true) :
    parseNumber (printDec p m e ++ rest) = some (.mk p m e, rest) := by
  cases p with
  | true =>
    have hshape : printDec true m e ++ rest
        = decDigits m ++ ((if e = 0 then [] else 0x65 :: intDigits e) ++ rest) := by
      simp [printDec]
    obtain ⟨d0, t0, hm0, hd0⟩ := decDigits_head m
    obtain ⟨h030, h039⟩ := digit_byte_range hd0
    rw [hshape, hm0, List.cons_append]
    simp only [parseNumber]
    rw [if_neg (by omega : ¬ d0 = 0x2D), ← List.cons_append, ← hm0]
    exact parseNumberBody_spec true m e rest hr
  | false =>
    have hshape : printDec false m e ++ rest
        = 0x2D :: (decDigits m
            ++ ((if e = 0 then [] else 0x65 :: intDigits e) ++ rest)) := by
      simp [printDec]
    rw [hshape]
    simp only [parseNumber]
    rw [if_true]
    exact parseNumberBody_spec false m e rest hr

/-! ## String escaping inverts -/

theorem hexVal_hexDigit : ∀ d < 16, hexVal (hexDigit d) = some d := by
  decide

/-- Reading one escaped byte undoes its escaping. -/
theorem parseString_escapeByte (b : Nat) (acc tail : List Nat) :
    parseString acc (escapeByte b ++ tail) = parseString (b :: acc) tail := by
  by_cases h22 : b = 0x22
  · subst h22
    rw [show escapeByte 0x22 ++ tail = 0x5C :: 0x22 :: tail from rfl,
      parseString.eq_def]
    simp [unescapeByte]
  by_cases h5c : b = 0x5C
  · subst h5c
    rw [show escapeByte 0x5C ++ tail = 0x5C :: 0x5C :: tail from rfl,
      parseString.eq_def]
    simp [unescapeByte]
  by_cases h08 : b = 0x08
  · subst h08
    rw [show escapeByte 0x08 ++ tail = 0x5C :: 0x62 :: tail from rfl,
      parseString.eq_def]
    simp [unescapeByte]
  by_cases h09 : b = 0x09
  · subst h09
    rw [show escapeByte 0x09 ++ tail = 0x5C :: 0x74 :: tail from rfl,
      parseString.eq_def]
    simp [unescapeByte]
  by_cases h0a : b = 0x0A
  · subst h0a
    rw [show escapeByte 0x0A ++ tail = 0x5C :: 0x6E :: tail from rfl,
      parseString.eq_def]
    simp [unescapeByte]
  by_cases h0c : b = 0x0C
  · subst h0c
    rw [show escapeByte 0x0C ++ tail = 0x5C :: 0x66 :: tail from rfl,
      parseString.eq_def]
    simp [unescapeByte]
  by_cases h0d : b = 0x0D
  · subst h0d
    rw [show escapeByte 0x0D ++ tail = 0x5C :: 0x72 :: tail from rfl,
      parseString.eq_def]
    simp [unescapeByte]
  by_cases hctl : b < 0x20
  · have hesc : escapeByte b
        = [0x5C, 0x75, 0x30, 0x30, hexDigit (b / 16), hexDigit (b % 16)] := by
      unfold escapeByte
      rw [if_neg h22, if_neg h5c, if_neg h08, if_neg h09, if_neg h0a,
        if_neg h0c, if_neg h0d, if_pos hctl]
    have hv2 : hexVal (hexDigit (b / 16)) = some (b / 16) :=
      hexVal_hexDigit (b / 16) (by omega)
    have hv3 : hexVal (hexDigit (b % 16)) = some (b % 16) :=
      hexVal_hexDigit (b % 16) (Nat.mod_lt _ (by omega))
    have hv30 : hexVal 0x30 = some 0 := by decide
    have hcp : ((0 * 16 + 0) * 16 + b / 16) * 16 + b % 16 = b := by omega
    have hutf : utf8Encode b = [b] := by
      unfold utf8Encode
      rw [if_pos (by omega : b < 0x80)]
    rw [hesc,
      show ([0x5C, 0x75, 0x30, 0x30, hexDigit (b / 16), hexDigit (b % 16)]
          : List Nat) ++ tail
        = 0x5C :: 0x75 :: 0x30 :: 0x30 :: hexDigit (b / 16)
          :: hexDigit (b % 16) :: tail from rfl,
      parseString.eq_def]
    simp only [if_neg (by omega : ¬ (0x5C : Nat) = 0x22), if_pos rfl]
    rw [hv30, hv2, hv3]
    simp only [hcp, hutf, List.reverse_cons, List.reverse_nil, List.nil_append,
      List.singleton_append]
    simp
  · have hesc : escapeByte b = [b] := by
      unfold escapeByte
      rw [if_neg h22, if_neg h5c, if_neg h08, if_neg h09, if_neg h0a,
        if_neg h0c, if_neg h0d, if_neg hctl]
    rw [hesc, show ([b] : List Nat) ++ tail = b :: tail from rfl,
      parseString.eq_def]
    simp only [if_neg h22, if_neg h5c]

/-- Reading an escaped run stops exactly at the closing quote. -/
theorem parseString_flat (s : List Nat) : ∀ (acc rest : List Nat),
    parseString acc (s.flatMap escapeByte ++ 0x22 :: rest)
      = some (acc.reverse ++ s, rest) := by
  induction s with
  | nil =>
    intro acc rest
    rw [List.flatMap_nil, List.nil_append, parseString.eq_def]
    simp
  | cons b t ih =>
    intro acc rest
    rw [List.flatMap_cons, List.append_assoc, parseString_escapeByte, ih]
    simp

/-! ## Round-trip helpers -/

theorem objInv_array (xs : List JsonValue) : objInv (.array xs) = objInvList xs := by
  conv_lhs => rw [objInv]

theorem objInv_object (es : Entries) :
    objInv (.object es) = (dupFree (keys es) && objInvEntries es) := by
  conv_lhs => rw [objInv]

theorem objInvList_cons (x : JsonValue) (xs : List JsonValue) :
    objInvList (x :: xs) = (objInv x && objInvList xs) := by
  conv_lhs => rw [objInvList]

theorem objInvEntries_cons (k : List Nat) (v : JsonValue) (es : Entries) :
    objInvEntries ((k, v) :: es) = (objInv v && objInvEntries es) := by
  conv_lhs => rw [objInvEntries]

theorem nanFree_number (n : Number) : nanFree (.number n) = !n.is_nan := by
  conv_lhs => rw [nanFree]

theorem nanFree_array (xs : List JsonValue) : nanFree (.array xs) = nanFreeList xs := by
  conv_lhs => rw [nanFree]

theorem nanFree_object (es : Entries) : nanFree (.object es) = nanFreeEntries es := by
  conv_lhs => rw [nanFree]

theorem nanFreeList_cons (x : JsonValue) (xs : List JsonValue) :
    nanFreeList (x :: xs) = (nanFree x && nanFreeList xs) := by
  conv_lhs => rw [nanFreeList]

theorem nanFreeEntries_cons (k : List Nat) (v : JsonValue) (es : Entries) :
    nanFreeEntries ((k, v) :: es) = (nanFree v && nanFreeEntries es) := by
  conv_lhs => rw [nanFreeEntries]

theorem mapInsert_not_mem {es : Entries} {k : List Nat} (h : k ∉ keys es)
    (v : JsonValue) : mapInsert es k v = es ++ [(k, v)] := by
  induction es with
  | nil => rfl
  | cons e rest ih =>
    obtain ⟨k1, v1⟩ := e
    have hk1 : k1 ≠ k := by
      intro he
      exact h (by simp [keys, he])
    unfold mapInsert
    rw [if_neg hk1, ih fun hm => h (List.mem_cons_of_mem _ hm)]
    rfl

theorem dupFree_split_not_mem {X Y : List (List Nat)} {k : List Nat}
    (h : dupFree (X ++ k :: Y) = true) : k ∉ X := by
  intro hk
  have hnd := (dupFree_iff_nodup _).mp h
  exact (List.disjoint_of_nodup_append hnd) hk (List.mem_cons_self _ _)

theorem dump_head_ne (v : JsonValue) :
    ∃ c t, write_json [] v = c :: t ∧ c ≠ 0x5D := by
  cases v with
  | null => exact ⟨0x6E, _, dj_null, by omega⟩
  | boolean b =>
    cases b with
    | true => exact ⟨0x74, _, dj_true, by omega⟩
    | false => exact ⟨0x66, _, dj_false, by omega⟩
  | number n =>
    cases n with
    | nan => exact ⟨0x6E, [0x75, 0x6C, 0x6C], by simp [write_json, write_number,
        nullBytes], by omega⟩
    | mk p m e =>
      have hd : write_json [] (.number (.mk p m e)) = printDec p m e := by
        simp [write_json, write_number]
      cases p with
      | false =>
        refine ⟨0x2D, decDigits m
          ++ (if e = 0 then [] else 0x65 :: intDigits e), ?_, by omega⟩
        rw [hd]
        simp [printDec]
      | true =>
        obtain ⟨d0, t0, hm0, hd0⟩ := decDigits_head m
        obtain ⟨h030, h039⟩ := digit_byte_range hd0
        refine ⟨d0, t0
          ++ (if e = 0 then [] else 0x65 :: intDigits e), ?_, by omega⟩
        rw [hd]
        simp [printDec, hm0]
  | string s => exact ⟨0x22, _, dj_string s, by omega⟩
  | array xs =>
    cases xs with
    | nil => exact ⟨0x5B, _, dj_array_nil, by omega⟩
    | cons x xs => exact ⟨0x5B, _, dj_array_cons x xs, by omega⟩
  | object es =>
    cases es with
    | nil => exact ⟨0x7B, _, by rw [dj_object, wo_nil], by omega⟩
    | cons e rest =>
      obtain ⟨k, v⟩ := e
      exact ⟨0x7B, _, by rw [dj_object, wo_cons], by omega⟩

/-! ## The round trip -/

mutual
/-- Parsing the compact rendering of a value, followed by a remainder that
cannot extend a number, recovers the value exactly. -/
theorem rt_val : ∀ (v : JsonValue) (fuel : Nat) (rest : List Nat),
    objInv v = true → nanFree v = true →
    (write_json [] v).length < fuel → numDelimB rest = true →
    parseValue fuel (write_json [] v ++ rest) = some (v, rest)
  | .null, fuel, rest, _, _, hf, _ => by
    rw [dj_null] at hf ⊢
    cases fuel with
    | zero => simp at hf
    | succ f => simp [parseValue]
  | .boolean true, fuel, rest, _, _, hf, _ => by
    rw [dj_true] at hf ⊢
    cases fuel with
    | zero => simp at hf
    | succ f => simp [parseValue]
  | .boolean false, fuel, rest, _, _, hf, _ => by
    rw [dj_false] at hf ⊢
    cases fuel with
    | zero => simp at hf
    | succ f => simp [parseValue]
  | .number n, fuel, rest, _, hn, hf, hr => by
    cases n with
    | nan =>
      rw [nanFree_number] at hn
      simp [Number.is_nan] at hn
    | mk p m e =>
      have hd : write_json [] (.number (.mk p m e)) = printDec p m e := by
        simp [write_json, write_number]
      rw [hd] at hf ⊢
      cases fuel with
      | zero =>
        exfalso
        obtain ⟨d0, t0, hm0, -⟩ := decDigits_head m
        have hne : printDec p m e ≠ [] := by
          cases p <;> simp [printDec, hm0]
        have : 0 < (printDec p m e).length := List.length_pos.mpr hne
        omega
      | succ f =>
        cases p with
        | false =>
          have hshape : printDec false m e ++ rest
              = 0x2D :: ((decDigits m
                  ++ ((if e = 0 then [] else 0x65 :: intDigits e) ++ rest))) := by
            simp [printDec]
          rw [hshape]
          simp only [parseValue]
          norm_num
          rw [show (0x2D : Nat) :: (decDigits m
              ++ ((if e = 0 then [] else 0x65 :: intDigits e) ++ rest))
            = printDec false m e ++ rest from by simp [printDec],
            parseNumber_printDec false m e rest hr]
        | true =>
          obtain ⟨d0, t0, hm0, hd0⟩ := decDigits_head m
          obtain ⟨h030, h039⟩ := digit_byte_range hd0
          have hshape : printDec true m e ++ rest
              = d0 :: (t0
                  ++ ((if e = 0 then [] else 0x65 :: intDigits e) ++ rest)) := by
            simp [printDec, hm0]
          rw [hshape]
          simp only [parseValue]
          rw [if_neg (by omega : ¬ d0 = 0x6E), if_neg (by omega : ¬ d0 = 0x74),
            if_neg (by omega : ¬ d0 = 0x66), if_neg (by omega : ¬ d0 = 0x22),
            if_neg (by omega : ¬ d0 = 0x5B), if_neg (by omega : ¬ d0 = 0x7B),
            if_pos (Or.inr hd0)]
          rw [show d0 :: (t0
              ++ ((if e = 0 then [] else 0x65 :: intDigits e) ++ rest))
            = printDec true m e ++ rest from by simp [printDec, hm0],
            parseNumber_printDec true m e rest hr]
          rfl
  | .string s, fuel, rest, _, _, hf, _ => by
    rw [dj_string] at hf ⊢
    cases fuel with
    | zero => simp at hf
    | succ f =>
      rw [show (0x22 :: (s.flatMap escapeByte ++ [0x22])) ++ rest
        = 0x22 :: (s.flatMap escapeByte ++ 0x22 :: rest) from by simp]
      simp only [parseValue]
      norm_num
      rw [parseString_flat]
      simp
  | .array [], fuel, rest, _, _, hf, _ => by
    rw [dj_array_nil] at hf ⊢
    cases fuel with
    | zero => simp at hf
    | succ f => simp [parseValue]
  | .array (x :: xs), fuel, rest, hw, hn, hf, _ => by
    rw [objInv_array, objInvList_cons] at hw
    rw [nanFree_array, nanFreeList_cons] at hn
    rw [dj_array_cons] at hf ⊢
    cases fuel with
    | zero => simp at hf
    | succ f =>
      obtain ⟨c, t, hct, hc⟩ := dump_head_ne x
      have harg : (0x5B :: (write_json [] x ++ (write_items [] xs ++ [0x5D]))) ++ rest
          = 0x5B :: (write_json [] x ++ (write_items [] xs ++ 0x5D :: rest)) := by
        simp
      have hcons : write_json [] x ++ (write_items [] xs ++ 0x5D :: rest)
          = c :: (t ++ (write_items [] xs ++ 0x5D :: rest)) := by
        rw [hct]
        rfl
      rw [harg, hcons]
      simp only [parseValue]
      norm_num
      rw [if_neg hc, ← hcons,
        rt_elems x xs f rest (by rw [objInvList_cons]; exact hw)
          (by rw [nanFreeList_cons]; exact hn)
          (by simp only [List.length_cons, List.length_append] at hf ⊢; omega)]
      rfl
  | .object [], fuel, rest, _, _, hf, _ => by
    rw [dj_object, wo_nil] at hf ⊢
    cases fuel with
    | zero => simp at hf
    | succ f => simp [parseValue]
  | .object ((k, v) :: ms), fuel, rest, hw, hn, hf, _ => by
    rw [objInv_object, Bool.and_eq_true] at hw
    rw [nanFree_object] at hn
    rw [dj_object, wo_cons] at hf ⊢
    cases fuel with
    | zero => simp at hf
    | succ f =>
      have harg : (0x7B :: (write_string [] k
            ++ 0x3A :: (write_json [] v ++ (write_entries [] ms ++ [0x7D])))) ++ rest
          = 0x7B :: (write_string [] k
            ++ 0x3A :: (write_json [] v ++ (write_entries [] ms ++ 0x7D :: rest))) := by
        simp
      have hcons : write_string [] k
            ++ 0x3A :: (write_json [] v ++ (write_entries [] ms ++ 0x7D :: rest))
          = 0x22 :: (k.flatMap escapeByte
            ++ 0x22 :: 0x3A :: (write_json [] v
              ++ (write_entries [] ms ++ 0x7D :: rest))) := by
        rw [write_string_spec]
        simp
      rw [harg, hcons]
      simp only [parseValue]
      norm_num
      rw [← hcons,
        rt_members k v ms f [] rest hw.2 hn
          (by simp only [keys, List.map_nil, List.nil_append]; exact hw.1)
          (by
            rw [write_string_spec] at hf ⊢
            simp only [List.length_cons, List.length_append, List.nil_append] at hf ⊢
            omega)]
      simp
  termination_by v _ _ _ _ _ _ => sizeOf v

theorem rt_elems : ∀ (x : JsonValue) (xs : List JsonValue) (fuel : Nat)
    (rest : List Nat),
    objInvList (x :: xs) = true → nanFreeList (x :: xs) = true →
    (write_json [] x ++ write_items [] xs).length + 1 < fuel →
    parseElems fuel (write_json [] x ++ (write_items [] xs ++ 0x5D :: rest))
      = some (x :: xs, rest)
  | x, [], fuel, rest, hw, hn, hf => by
    rw [objInvList_cons, Bool.and_eq_true] at hw
    rw [nanFreeList_cons, Bool.and_eq_true] at hn
    cases fuel with
    | zero => omega
    | succ f =>
      rw [wi_nil] at hf ⊢
      simp only [List.nil_append]
      have hx := rt_val x f (0x5D :: rest) hw.1 hn.1
        (by simp only [List.length_append, List.length_nil] at hf; omega)
        (by unfold numDelimB isDigitB; simp)
      simp only [parseElems, hx]
      norm_num
  | x, y :: ys, fuel, rest, hw, hn, hf => by
    rw [objInvList_cons, Bool.and_eq_true] at hw
    rw [nanFreeList_cons, Bool.and_eq_true] at hn
    cases fuel with
    | zero => omega
    | succ f =>
      rw [wi_cons] at hf ⊢
      have harg : write_json [] x ++ ((0x2C
            :: (write_json [] y ++ write_items [] ys)) ++ 0x5D :: rest)
          = write_json [] x ++ (0x2C
            :: (write_json [] y ++ (write_items [] ys ++ 0x5D :: rest))) := by
        simp
      rw [harg]
      have hx := rt_val x f (0x2C
          :: (write_json [] y ++ (write_items [] ys ++ 0x5D :: rest)))
        hw.1 hn.1
        (by simp only [List.length_cons, List.length_append] at hf; omega)
        (by unfold numDelimB isDigitB; simp)
      have htail := rt_elems y ys f rest hw.2 hn.2
        (by simp only [List.length_cons, List.length_append] at hf ⊢; omega)
      simp only [parseElems, hx]
      norm_num
      rw [htail]
  termination_by x xs _ _ _ _ _ => sizeOf x + sizeOf xs

theorem rt_members : ∀ (k : List Nat) (v : JsonValue) (ms : Entries)
    (fuel : Nat) (acc : Entries) (rest : List Nat),
    objInvEntries ((k, v) :: ms) = true → nanFreeEntries ((k, v) :: ms) = true →
    dupFree (keys acc ++ keys ((k, v) :: ms)) = true →
    (write_string [] k
        ++ 0x3A :: (write_json [] v ++ write_entries [] ms)).length + 1 < fuel →
    parseMembers fuel acc
        (write_string [] k
          ++ 0x3A :: (write_json [] v ++ (write_entries [] ms ++ 0x7D :: rest)))
      = some (acc ++ (k, v) :: ms, rest)
  | k, v, [], fuel, acc, rest, hw, hn, hd, hf => by
    rw [objInvEntries_cons, Bool.and_eq_true] at hw
    rw [nanFreeEntries_cons, Bool.and_eq_true] at hn
    cases fuel with
    | zero => omega
    | succ f =>
      rw [we_nil] at hf ⊢
      have hknacc : k ∉ keys acc :=
        dupFree_split_not_mem (by simpa [keys] using hd)
      have hv := rt_val v f (0x7D :: rest) hw.1 hn.1
        (by
          rw [write_string_spec] at hf
          simp only [List.length_cons, List.length_append, List.nil_append,
            List.append_nil] at hf
          omega)
        (by unfold numDelimB isDigitB; simp)
      have hcons : write_string [] k
            ++ 0x3A :: (write_json [] v ++ (([] : List Nat) ++ 0x7D :: rest))
          = 0x22 :: (k.flatMap escapeByte
            ++ 0x22 :: 0x3A :: (write_json [] v ++ 0x7D :: rest)) := by
        rw [write_string_spec]
        simp
      rw [hcons]
      simp only [parseMembers]
      norm_num
      rw [parseString_flat]
      simp only [Option.some.injEq, List.reverse_nil, List.nil_append]
      norm_num
      rw [hv]
      simp only [Object.insert, mapInsert_not_mem hknacc]
      norm_num
  | k, v, (k2, v2) :: ms2, fuel, acc, rest, hw, hn, hd, hf => by
    rw [objInvEntries_cons, Bool.and_eq_true] at hw
    rw [nanFreeEntries_cons, Bool.and_eq_true] at hn
    cases fuel with
    | zero => omega
    | succ f =>
      have hknacc : k ∉ keys acc :=
        dupFree_split_not_mem (by simpa [keys] using hd)
      rw [we_cons] at hf ⊢
      have harg : write_string [] k ++ 0x3A :: (write_json [] v
            ++ ((0x2C :: (write_string [] k2
              ++ 0x3A :: (write_json [] v2 ++ write_entries [] ms2)))
                ++ 0x7D :: rest))
          = write_string [] k ++ 0x3A :: (write_json [] v
            ++ (0x2C :: (write_string [] k2
              ++ 0x3A :: (write_json [] v2
                ++ (write_entries [] ms2 ++ 0x7D :: rest))))) := by
        simp
      rw [harg]
      have hv := rt_val v f (0x2C :: (write_string [] k2
          ++ 0x3A :: (write_json [] v2 ++ (write_entries [] ms2 ++ 0x7D :: rest))))
        hw.1 hn.1
        (by
          rw [write_string_spec] at hf
          simp only [List.length_cons, List.length_append, List.nil_append] at hf
          omega)
        (by unfold numDelimB isDigitB; simp)
      have htail := rt_members k2 v2 ms2 f (acc ++ [(k, v)]) rest hw.2 hn.2
        (by
          have hkeq : keys (acc ++ [(k, v)]) ++ keys ((k2, v2) :: ms2)
              = keys acc ++ keys ((k, v) :: (k2, v2) :: ms2) := by
            simp [keys]
          rw [hkeq]
          exact hd)
        (by
          rw [write_string_spec [] k, write_string_spec [] k2] at hf
          simp only [List.length_cons, List.length_append, List.nil_append] at hf ⊢
          rw [write_string_spec [] k2]
          simp only [List.length_cons, List.length_append, List.nil_append]
          omega)
      have hcons : write_string [] k
            ++ 0x3A :: (write_json [] v ++ (0x2C :: (write_string [] k2
              ++ 0x3A :: (write_json [] v2
                ++ (write_entries [] ms2 ++ 0x7D :: rest)))))
          = 0x22 :: (k.flatMap escapeByte
            ++ 0x22 :: 0x3A :: (write_json [] v ++ (0x2C :: (write_string [] k2
              ++ 0x3A :: (write_json [] v2
                ++ (write_entries [] ms2 ++ 0x7D :: rest)))))) := by
        rw [write_string_spec]
        simp
      rw [hcons]
      simp only [parseMembers]
      norm_num
      rw [parseString_flat]
      simp only [Option.some.injEq, List.reverse_nil, List.nil_append]
      norm_num
      rw [hv]
      simp only [Object.insert, mapInsert_not_mem hknacc]
      norm_num
      rw [htail]
      simp
  termination_by _ v ms _ _ _ _ _ _ _ => sizeOf v + sizeOf ms
end


/-! ## Reflexivity of the modelled equality -/

theorem jsonEq_eq_null : jsonEq .null .null = true := by
  conv_lhs => rw [jsonEq]

theorem jsonEq_eq_boolean (a b : Bool) :
    jsonEq (.boolean a) (.boolean b) = (a == b) := by
  conv_lhs => rw [jsonEq]

theorem jsonEq_eq_number (a b : Number) :
    jsonEq (.number a) (.number b) = (a == b) := by
  conv_lhs => rw [jsonEq]

theorem jsonEq_eq_string (a b : List Nat) :
    jsonEq (.string a) (.string b) = (a == b) := by
  conv_lhs => rw [jsonEq]

theorem jsonEq_eq_array (a b : List JsonValue) :
    jsonEq (.array a) (.array b) = listJsonEq a b := by
  conv_lhs => rw [jsonEq]

theorem jsonEq_eq_object (a b : Entries) :
    jsonEq (.object a) (.object b) = objectEq a b := by
  conv_lhs => rw [jsonEq]

theorem listJsonEq_nil : listJsonEq [] [] = true := by
  conv_lhs => rw [listJsonEq]

theorem listJsonEq_cons (a b : JsonValue) (as1 bs1 : List JsonValue) :
    listJsonEq (a :: as1) (b :: bs1) = (jsonEq a b && listJsonEq as1 bs1) := by
  conv_lhs => rw [listJsonEq]

mutual
/-- The modelled `PartialEq` is reflexive on trees within the key
invariant. -/
theorem jsonEq_refl : ∀ (v : JsonValue), objInv v = true → jsonEq v v = true
  | .null, _ => jsonEq_eq_null
  | .boolean a, _ => by rw [jsonEq_eq_boolean]; simp
  | .number n, _ => by rw [jsonEq_eq_number]; simp
  | .string s, _ => by rw [jsonEq_eq_string]; simp
  | .array xs, h => by
    rw [jsonEq_eq_array]
    exact listJsonEq_refl xs (by rwa [objInv_array] at h)
  | .object es, h => by
    rw [objInv_object, Bool.and_eq_true] at h
    rw [jsonEq_eq_object]
    unfold objectEq
    rw [Bool.and_eq_true]
    refine ⟨by simp, ?_⟩
    rw [objectSub_iff]
    intro k v hm
    exact ⟨v, mapGet_of_mem_nodup h.1 hm, entriesJsonEq_refl es h.2 k v hm⟩
  termination_by v _ => sizeOf v

theorem listJsonEq_refl : ∀ (xs : List JsonValue), objInvList xs = true →
    listJsonEq xs xs = true
  | [], _ => listJsonEq_nil
  | x :: xs, h => by
    rw [objInvList_cons, Bool.and_eq_true] at h
    rw [listJsonEq_cons, Bool.and_eq_true]
    exact ⟨jsonEq_refl x h.1, listJsonEq_refl xs h.2⟩
  termination_by xs _ => sizeOf xs

theorem entriesJsonEq_refl : ∀ (es : Entries), objInvEntries es = true →
    ∀ (k : List Nat) (v : JsonValue), (k, v) ∈ es → jsonEq v v = true
  | [], _, _, _, hm => absurd hm (List.not_mem_nil _)
  | (k1, v1) :: rest, h, k, v, hm => by
    rw [objInvEntries_cons, Bool.and_eq_true] at h
    rcases List.mem_cons.mp hm with he | hm2
    · have hv : v = v1 := congrArg Prod.snd he
      rw [hv]
      exact jsonEq_refl v1 h.1
    · exact entriesJsonEq_refl rest h.2 k v hm2
  termination_by es _ _ _ _ => sizeOf es
end

/-! ## Claim theorems: round trip -/

/-- C2: for every value tree within the Object key-uniqueness invariant and
containing no not-a-number sentinel, parsing the compact dump reproduces a
value equal to the original — in fact exactly the original, which is then
equal to it under the order-independent object equality of `PartialEq`. -/
theorem c2_roundtrip (v : JsonValue) (hwf : objInv v = true)
    (hnan : nanFree v = true) :
    ∃ w, parse (dump v) = some w ∧ jsonEq w v = true := by
  refine ⟨v, ?_, jsonEq_refl v hwf⟩
  unfold parse dump
  have hrt := rt_val v ((write_json [] v).length + 1) [] hwf hnan
    (by omega) rfl
  rw [List.append_nil] at hrt
  rw [hrt]

/-- Witness for C2: a two-entry object holding an array with a number and a
null, and a string needing escapes. -/
theorem c2_roundtrip_witness :
    objInv (JsonValue.object [([0x61], .array [.number (.mk true 12 0), .null]),
        ([0x62], .string [0x0A, 0x22])]) = true ∧
    nanFree (JsonValue.object [([0x61], .array [.number (.mk true 12 0), .null]),
        ([0x62], .string [0x0A, 0x22])]) = true ∧
    ∃ w, parse (dump (JsonValue.object
        [([0x61], .array [.number (.mk true 12 0), .null]),
         ([0x62], .string [0x0A, 0x22])])) = some w ∧
      jsonEq w (JsonValue.object [([0x61], .array [.number (.mk true 12 0), .null]),
        ([0x62], .string [0x0A, 0x22])]) = true :=
  ⟨by simp [objInv, objInvList, objInvEntries, dupFree, keys],
   by simp [nanFree, nanFreeList, nanFreeEntries, Number.is_nan],
   c2_roundtrip (JsonValue.object [([0x61], .array [.number (.mk true 12 0), .null]),
        ([0x62], .string [0x0A, 0x22])])
     (by simp [objInv, objInvList, objInvEntries, dupFree, keys])
     (by simp [nanFree, nanFreeList, nanFreeEntries, Number.is_nan])⟩

end JsonRust
